import Mathlib

set_option maxHeartbeats 1000000
set_option synthInstance.maxHeartbeats 400000

namespace GmailYamlFilters

/-!  Shallow embedding of the inference core of `gmail_yaml_filters`
(`operator_inference.py`, `inference_safety.py`, and the inference parts of
`xml_converter.py`).  Strings are modelled as `List Char`; Python dictionaries
as insertion-ordered association lists.  -/

/-- Python-style dynamic value appearing in filter dictionaries:
strings, booleans, lists, and insertion-ordered dictionaries
(association lists of key/value pairs with unique keys). -/
inductive PyVal where
  | pstr : List Char → PyVal
  | pbool : Bool → PyVal
  | plist : List PyVal → PyVal
  | pdict : List (List Char × PyVal) → PyVal

mutual

/-- Structural equality on `PyVal`, mirroring Python `==` on these values. -/
def pyBeq : PyVal → PyVal → Bool
  | .pstr a, .pstr b => a == b
  | .pbool a, .pbool b => a == b
  | .plist a, .plist b => pyBeqList a b
  | .pdict a, .pdict b => pyBeqDict a b
  | _, _ => false

/-- Elementwise equality of `PyVal` lists. -/
def pyBeqList : List PyVal → List PyVal → Bool
  | [], [] => true
  | x :: xs, y :: ys => pyBeq x y && pyBeqList xs ys
  | _, _ => false

/-- Pairwise equality of association lists. -/
def pyBeqDict : List (List Char × PyVal) → List (List Char × PyVal) → Bool
  | [], [] => true
  | (k1, v1) :: xs, (k2, v2) :: ys => k1 == k2 && pyBeq v1 v2 && pyBeqDict xs ys
  | _, _ => false

end

/-- A filter rule: a Python dict from field name to value. -/
abbrev Rule := List (List Char × PyVal)

/-- Python `d.get(key)`: first value bound to `key`, if any. -/
def dictGet (key : List Char) : Rule → Option PyVal
  | [] => none
  | (k, v) :: rest => if k = key then some v else dictGet key rest

/-- Python `key in d`. -/
def dictMem (key : List Char) (d : Rule) : Bool :=
  (dictGet key d).isSome

/-- Python `d[key] = v`: replace in place if present, else append. -/
def dictSet (key : List Char) (v : PyVal) : Rule → Rule
  | [] => [(key, v)]
  | (k, w) :: rest => if k = key then (k, v) :: rest else (k, w) :: dictSet key v rest

/-- Python `del d[key]`: drop the binding, keep the order of the others. -/
def dictDel (key : List Char) : Rule → Rule
  | [] => []
  | (k, w) :: rest => if k = key then rest else (k, w) :: dictDel key rest

/-- Python truthiness of a value (`bool(v)`). -/
def pyTruthy : PyVal → Bool
  | .pstr s => !s.isEmpty
  | .pbool b => b
  | .plist l => !l.isEmpty
  | .pdict d => !d.isEmpty

/-- Python `d.get(key)` is truthy (`d.get(key)` used in a boolean context;
a missing key, i.e. `None`, is falsy). -/
def dictGetTruthy (key : List Char) (d : Rule) : Bool :=
  match dictGet key d with
  | some v => pyTruthy v
  | none => false

/-- The double-quote character. -/
def dq : Char := Char.ofNat 34

/-- The single-quote character. -/
def sq : Char := Char.ofNat 39

/-- Python regex `\s` / `str.strip()` whitespace (ASCII part). -/
def isWSp (c : Char) : Bool :=
  c = ' ' || c = '\t' || c = '\n' || c = '\r' || c = Char.ofNat 11 || c = Char.ofNat 12

/-- Python `s.strip()`. -/
def stripWs (s : List Char) : List Char :=
  ((s.dropWhile isWSp).reverse.dropWhile isWSp).reverse

/-- Python `s.strip(chars)`: drop characters of `cs` from both ends. -/
def stripSet (cs : List Char) (s : List Char) : List Char :=
  ((s.dropWhile cs.contains).reverse.dropWhile cs.contains).reverse

/-- Python `s.lower()` (ASCII lowering, enough for the tables used here). -/
def lowerStr (s : List Char) : List Char :=
  s.map Char.toLower

/-- Python `pat in s` (substring containment). -/
def isSubstrOf (pat : List Char) : List Char → Bool
  | [] => pat.isEmpty
  | c :: t => pat.isPrefixOf (c :: t) || isSubstrOf pat t

/-- Python `s.split(sep, 1)` when `sep` occurs: the pieces around the first
occurrence of `sep`; `none` when `sep` does not occur. -/
def splitOnceSub (sep : List Char) : List Char → Option (List Char × List Char)
  | [] => if sep.isEmpty then some ([], []) else none
  | c :: t =>
      if sep.isPrefixOf (c :: t) then some ([], (c :: t).drop sep.length)
      else (splitOnceSub sep t).map (fun p => (c :: p.1, p.2))

theorem splitOnceSub_snd_lt (sep : List Char) (hsep : sep ≠ []) :
    ∀ s a b, splitOnceSub sep s = some (a, b) → b.length < s.length := by
  intro s
  induction s with
  | nil =>
      intro a b h
      simp only [splitOnceSub] at h
      rw [if_neg (by simpa [List.isEmpty_iff] using hsep)] at h
      exact absurd h (by simp)
  | cons c t ih =>
      intro a b h
      simp only [splitOnceSub] at h
      by_cases hp : sep.isPrefixOf (c :: t)
      · rw [if_pos hp] at h
        have hb : b = (c :: t).drop sep.length :=
          (congrArg Prod.snd (Option.some.inj h)).symm
        subst hb
        rw [List.length_drop]
        exact Nat.sub_lt (by simp) (List.length_pos.mpr hsep)
      · rw [if_neg hp] at h
        cases he : splitOnceSub sep t with
        | none => rw [he] at h; exact absurd h (by simp)
        | some p =>
            rw [he] at h
            have hb : b = p.2 := (congrArg Prod.snd (Option.some.inj h)).symm
            subst hb
            exact Nat.lt_succ_of_lt (ih p.1 p.2 he)

/-- Python `s.split(sep)`, with a fuel argument; each split strictly
shortens the remainder (for nonempty `sep`), so fuel `length + 1` always
suffices (see `splitAllSub_unfold`). -/
def splitAllSubF : Nat → List Char → List Char → List (List Char)
  | 0, _, s => [s]
  | fuel + 1, sep, s =>
      match splitOnceSub sep s with
      | none => [s]
      | some (a, b) => a :: splitAllSubF fuel sep b

/-- Python `s.split(sep)` for nonempty `sep`. -/
def splitAllSub (sep : List Char) (s : List Char) : List (List Char) :=
  splitAllSubF (s.length + 1) sep s

/-- `OperatorInference._strip_quotes`: drop one pair of matching surrounding
quotes. -/
def stripQuotes (v : List Char) : List Char :=
  if 2 ≤ v.length ∧
      ((v.head? = some dq ∧ v.getLast? = some dq) ∨
        (v.head? = some sq ∧ v.getLast? = some sq)) then
    (v.drop 1).dropLast
  else v

/-- Loop body of `OperatorInference._split_terms`: the state is the pending
quote character and the current term (reversed). -/
def splitTermsGo : Option Char → List Char → List Char → List (List Char)
  | _, cur, [] => if cur.isEmpty then [] else [cur.reverse]
  | qc, cur, c :: rest =>
      if c = dq ∨ c = sq then
        match qc with
        | none => splitTermsGo (some c) cur rest
        | some q => if c = q then splitTermsGo none cur rest
                    else splitTermsGo (some q) (c :: cur) rest
      else if c = ' ' ∧ qc = none then
        if cur.isEmpty then splitTermsGo qc cur rest
        else cur.reverse :: splitTermsGo qc [] rest
      else splitTermsGo qc (c :: cur) rest

/-- `OperatorInference._split_terms`: whitespace splitting that respects
quoted substrings. -/
def splitTerms (content : List Char) : List (List Char) :=
  splitTermsGo none [] content

/-- The token `" OR "`. -/
def orTok : List Char := " OR ".data

/-- The token `" AND "`. -/
def andTok : List Char := " AND ".data

/-- The separator word `OR`. -/
def orWord : List Char := "OR".data

/-- The separator word `AND`. -/
def andWord : List Char := "AND".data

/-- Build `{'any': [...]}`. -/
def pyAny (l : List PyVal) : PyVal := .pdict [("any".data, .plist l)]

/-- Build `{'all': [...]}`. -/
def pyAll (l : List PyVal) : PyVal := .pdict [("all".data, .plist l)]

/-- Build `{'not': v}`. -/
def pyNot (v : PyVal) : PyVal := .pdict [("not".data, v)]

/-- Attempt to match `\s+SEP\s+(.+)$` at the start of `s` (Python `re`
semantics: `\s+` is greedy, `.` does not match a newline, group 2 must be
nonempty; when everything after the second `\s+` run is empty the `\s+`
gives one whitespace character back to group 2).  `g1` is the already fixed
first group. -/
def trySepHere (sep : List Char) (g1 : List Char) (s : List Char) :
    Option (List Char × List Char) :=
  let w1 := s.takeWhile isWSp
  if w1.isEmpty then none
  else
    let r1 := s.drop w1.length
    if sep.isPrefixOf r1 then
      let r2 := r1.drop sep.length
      let w2 := r2.takeWhile isWSp
      if w2.isEmpty then none
      else
        let g2 := r2.drop w2.length
        if g2.isEmpty then
          match w2.getLast? with
          | some wc => if 2 ≤ w2.length ∧ wc ≠ '\n' then some (g1, [wc]) else none
          | none => none
        else if g2.contains '\n' then none
        else some (g1, g2)
    else none

/-- Scan for the lazy match of `^(.+?)\s+SEP\s+(.+)$`: group 1 grows one
character at a time (it cannot contain a newline, since `.` does not match
one).  `acc` is the reversed group-1 candidate built so far. -/
def sepScan (sep : List Char) (acc : List Char) : List Char → Option (List Char × List Char)
  | [] => none
  | c :: rest =>
      if c = '\n' then none
      else
        match trySepHere sep ((c :: acc).reverse) rest with
        | some r => some r
        | none => sepScan sep (c :: acc) rest

/-- The match of `^(.+?)\s+SEP\s+(.+)$` against `s`, as (group 1, group 2). -/
def matchSepSplit (sep : List Char) (s : List Char) : Option (List Char × List Char) :=
  sepScan sep [] s

theorem stripWs_length_le (s : List Char) : (stripWs s).length ≤ s.length := by
  unfold stripWs
  have h1 : (((s.dropWhile isWSp).reverse).dropWhile isWSp).length ≤
      ((s.dropWhile isWSp).reverse).length := (List.dropWhile_sublist isWSp).length_le
  have h2 : (s.dropWhile isWSp).length ≤ s.length :=
    (List.dropWhile_sublist isWSp).length_le
  simp only [List.length_reverse] at h1 ⊢
  omega

/-- Fuelled body of the `while ' OR ' in terms[-1]` re-splitting loop of
`_detect_or_pattern` (and its `AND` twin): keep splitting the last term at
the first occurrence of the token, stripping both parts.  Each step
strictly shortens the term, so fuel `length + 1` always suffices (see
`tailSplit_unfold`). -/
def tailSplitF (tok : List Char) : Nat → List Char → List (List Char)
  | 0, t => [t]
  | fuel + 1, t =>
      if isSubstrOf tok t then
        match splitOnceSub tok t with
        | some (a, b) => stripWs a :: tailSplitF tok fuel (stripWs b)
        | none => [t]
      else [t]

/-- The `while ' OR ' in terms[-1]` re-splitting loop. -/
def tailSplit (tok : List Char) (t : List Char) : List (List Char) :=
  tailSplitF tok (t.length + 1) t

/-- `OperatorInference._detect_or_pattern`, with the recursive call to
`_process_search_string` abstracted as `proc`. -/
def detectOrPat (proc : List Char → PyVal) (value : List Char) : Option PyVal :=
  -- outer parentheses are stripped when the inner text has an OR token
  let stripped :=
    if value.head? = some '(' ∧ value.getLast? = some ')' then
      let inner := (value.drop 1).dropLast
      if isSubstrOf orTok inner then inner else value
    else value
  match matchSepSplit orWord stripped with
  | some (g1, g2) =>
      let terms := stripWs g1 :: tailSplit orTok (stripWs g2)
      let terms2 := terms.map stripQuotes
      some (pyAny (terms2.map proc))
  | none =>
      -- curly braces `^\{([^}]+)\}$`
      let curly :=
        if value.head? = some '{' ∧ value.getLast? = some '}' then
          let content := (value.drop 1).dropLast
          if ¬content.isEmpty ∧ ¬content.contains '}' then
            let terms := splitTerms content
            if 2 ≤ terms.length then some (pyAny (terms.map .pstr)) else none
          else none
        else none
      match curly with
      | some r => some r
      | none =>
          -- pipe separator
          if value.contains '|' ∧ value.head? ≠ some '|' ∧ value.getLast? ≠ some '|' then
            let terms := ((splitAllSub ['|'] value).map stripWs).filter
              (fun t => !t.isEmpty)
            if 2 ≤ terms.length then some (pyAny (terms.map .pstr)) else none
          else none

/-- `OperatorInference._detect_and_pattern`. -/
def detectAndPat (proc : List Char → PyVal) (value : List Char) : Option PyVal :=
  let stripped :=
    if value.head? = some '(' ∧ value.getLast? = some ')' then
      let inner := (value.drop 1).dropLast
      if isSubstrOf andTok inner then inner else value
    else value
  match matchSepSplit andWord stripped with
  | some (g1, g2) =>
      let terms := stripWs g1 :: tailSplit andTok (stripWs g2)
      let terms2 := terms.map stripQuotes
      some (pyAll (terms2.map proc))
  | none =>
      -- implicit AND inside parentheses `^\(([^)]+)\)$`, on the original value
      if value.head? = some '(' ∧ value.getLast? = some ')' then
        let content := (value.drop 1).dropLast
        if ¬content.isEmpty ∧ ¬content.contains ')' then
          if ¬isSubstrOf orTok content ∧ ¬content.contains '{' then
            let terms := splitTerms content
            if 2 ≤ terms.length then some (pyAll (terms.map .pstr)) else none
          else none
        else none
      else none

/-- `OperatorInference._detect_not_pattern`. -/
def detectNotPat (proc : List Char → PyVal) (value : List Char) : Option PyVal :=
  match value with
  | [] => none
  | c :: rest =>
      if c = '-' then
        if rest.isEmpty then none
        else
          let neg0 := stripWs rest
          let neg1 :=
            if ¬(isSubstrOf orTok neg0 ∨ isSubstrOf andTok neg0 ∨
                neg0.head? = some '{' ∨ neg0.head? = some '(') then
              stripQuotes neg0
            else neg0
          some (pyNot (proc neg1))
      else none

/-- Right-greedy scan for `^\((.+)\)\s+AND\s+(.+)$` (pattern 3 of
`_detect_complex_pattern`): among the decompositions after the leading
`(`, prefer the longest first group; the first group cannot contain a
newline.  `acc` is the reversed text read so far after the opening
parenthesis. -/
def parenAndScan (acc : List Char) : List Char → Option (List Char × List Char)
  | [] => none
  | c :: rest =>
      match parenAndScan (c :: acc) rest with
      | some r => some r
      | none =>
          if c = ')' then
            let g1 := acc.reverse
            if ¬g1.isEmpty ∧ ¬g1.contains '\n' then
              trySepHere andWord g1 rest
            else none
          else none

/-- Pattern 1 of `_detect_complex_pattern` (`^-\((.+)\)$`), given the text
after the leading `-(`. -/
def complexP1 (proc : List Char → PyVal) (rest : List Char) : Option PyVal :=
  if rest.getLast? = some ')' then
    let inner := rest.dropLast
    if ¬inner.isEmpty ∧ ¬inner.contains '\n' then
      if isSubstrOf orTok inner then
        match detectOrPat proc inner with
        | some r => some (pyNot r)
        | none => some (pyNot (.pstr inner))
      else some (pyNot (.pstr inner))
    else none
  else none

/-- Pattern 2 of `_detect_complex_pattern` (`^-\{([^}]+)\}$`), given the
text after the leading `-{`. -/
def complexP2 (rest : List Char) : Option PyVal :=
  if rest.getLast? = some '}' then
    let inner := rest.dropLast
    if ¬inner.isEmpty ∧ ¬inner.contains '}' then
      let terms := splitTerms inner
      if 2 ≤ terms.length then some (pyNot (pyAny (terms.map .pstr)))
      else none
    else none
  else none

/-- Pattern 3 of `_detect_complex_pattern` (`^\((.+)\)\s+AND\s+(.+)$`),
given the text after the leading `(`. -/
def complexP3 (proc : List Char → PyVal) (rest : List Char) : Option PyVal :=
  match parenAndScan [] rest with
  | some (g1, g2) =>
      let andTerm := stripWs g2
      if isSubstrOf orTok g1 then
        match detectOrPat proc g1 with
        | some r => some (pyAll [r, .pstr andTerm])
        | none => some (pyAll [.pstr g1, .pstr andTerm])
      else some (pyAll [.pstr g1, .pstr andTerm])
  | none => none

/-- `OperatorInference._detect_complex_pattern`: patterns 1, 2, 3 in
order.  Pattern 1 can only match when the value starts with `-(`, pattern 2
with `-{`, pattern 3 with `(`, so the dispatch is by the first two
characters. -/
def detectComplexPat (proc : List Char → PyVal) (value : List Char) : Option PyVal :=
  match value with
  | [] => none
  | c0 :: rest0 =>
      if c0 = '-' then
        match rest0 with
        | [] => none
        | c1 :: rest1 =>
            if c1 = '(' then complexP1 proc rest1
            else if c1 = '{' then complexP2 rest1
            else none
      else if c0 = '(' then complexP3 proc rest0
      else none

/-- `OperatorInference._process_search_string`, defined with a fuel
parameter; every recursive call is on a strictly shorter string, so fuel
`length + 1` always suffices (see `processF_irrel`). -/
def processF : Nat → List Char → PyVal
  | 0, value => .pstr (stripQuotes value)
  | n + 1, value =>
      match detectComplexPat (processF n) value with
      | some r => r
      | none =>
          match detectNotPat (processF n) value with
          | some r => r
          | none =>
              match detectOrPat (processF n) value with
              | some r => r
              | none =>
                  match detectAndPat (processF n) value with
                  | some r => r
                  | none => .pstr (stripQuotes value)

/-- `OperatorInference._process_search_string` (the expression parser). -/
def processSearchString (value : List Char) : PyVal :=
  processF (value.length + 1) value

/-- The condition/action fields scanned by `infer_operators`. -/
def searchFields : List (List Char) :=
  ["from".data, "to".data, "subject".data, "has".data, "does_not_have".data]

/-- Body of the list branch of `infer_operators`: strings in the list are
processed, everything else is kept. -/
def inferListItem (v : PyVal) : PyVal :=
  match v with
  | .pstr s => processSearchString s
  | other => other

/-- `OperatorInference.infer_operators`: apply the expression parser to the
string-valued (or list-of-strings-valued) search fields of a filter. -/
def inferOperators (filt : Rule) : Rule :=
  searchFields.foldl
    (fun modified field =>
      match dictGet field modified with
      | some (.pstr s) =>
          let result := processSearchString s
          if pyBeq result (.pstr s) then modified
          else dictSet field result modified
      | some (.plist items) =>
          let newList := items.map inferListItem
          if pyBeqList newList items then modified
          else dictSet field (.plist newList) modified
      | _ => modified)
    filt

/-! ### `inference_safety.py` -/

/-- `InferenceSafety.SECURITY_KEYWORDS`. -/
def securityKeywords : List (List Char) :=
  ["password".data, "reset".data, "verification".data, "verify".data, "verified".data,
   "2fa".data, "two-factor".data, "two factor".data, "otp".data, "one-time".data,
   "code".data, "token".data, "security".data, "secure".data, "confirm".data,
   "confirmation".data, "activate".data, "activation".data, "recover".data,
   "recovery".data, "authenticate".data, "authorization".data, "account".data,
   "signin".data, "sign-in".data, "login".data, "log-in".data]

/-- `InferenceSafety.CONFLICTING_ACTION_PAIRS`. -/
def conflictingActionPairs : List (List Char × List Char) :=
  [("archive".data, "not_archive".data),
   ("important".data, "not_important".data),
   ("mark_as_important".data, "never_mark_as_important".data),
   ("spam".data, "not_spam".data),
   ("read".data, "unread".data),
   ("star".data, "unstar".data)]

/-- `InferenceSafety.DANGEROUS_TO_INHERIT`. -/
def dangerousToInherit : List (List Char) :=
  ["archive".data, "delete".data, "trash".data, "read".data]

mutual

/-- Python `repr(v)` for the values of this model (strings are shown with
single quotes; enough for the keyword scans that go through `str()`). -/
def pyReprV : PyVal → List Char
  | .pstr s => sq :: s ++ [sq]
  | .pbool b => if b then "True".data else "False".data
  | .plist l => '[' :: pyReprVL l ++ [']']
  | .pdict d => '{' :: pyReprVD d ++ ['}']

def pyReprVL : List PyVal → List Char
  | [] => []
  | [x] => pyReprV x
  | x :: xs => pyReprV x ++ ", ".data ++ pyReprVL xs

def pyReprVD : List (List Char × PyVal) → List Char
  | [] => []
  | [(k, v)] => (sq :: k ++ [sq]) ++ ": ".data ++ pyReprV v
  | (k, v) :: xs => (sq :: k ++ [sq]) ++ ": ".data ++ pyReprV v ++ ", ".data ++ pyReprVD xs

end

/-- Python `str(v)`. -/
def pyToStr : PyVal → List Char
  | .pstr s => s
  | v => pyReprV v

/-- The value normalisation in `_is_security_sensitive`:
`[value] if isinstance(value, str) else value if isinstance(value, list) else []`. -/
def fieldValues : PyVal → List PyVal
  | .pstr s => [.pstr s]
  | .plist l => l
  | _ => []

/-- The fields scanned by `_is_security_sensitive`. -/
def securityTextFields : List (List Char) :=
  ["subject".data, "has".data, "from".data, "to".data, "label".data]

/-- `InferenceSafety._is_security_sensitive`. -/
def isSecuritySensitive (filt : Rule) : Bool :=
  securityTextFields.any fun field =>
    match dictGet field filt with
    | none => false
    | some value =>
        (fieldValues value).any fun val =>
          securityKeywords.any fun kw => isSubstrOf kw (lowerStr (pyToStr val))

/-- `InferenceSafety._get_action_conflicts`. -/
def getActionConflicts (parent child : Rule) : List (List Char × List Char) :=
  let base := conflictingActionPairs.foldl
    (fun acc p =>
      let a1 := p.1
      let a2 := p.2
      if dictMem a1 parent ∧ dictMem a2 child then
        if dictGetTruthy a1 parent ∧ dictGetTruthy a2 child then acc ++ [(a1, a2)] else acc
      else if dictMem a2 parent ∧ dictMem a1 child then
        if dictGetTruthy a2 parent ∧ dictGetTruthy a1 child then acc ++ [(a2, a1)] else acc
      else acc)
    []
  -- special case: archive in parent but important in child
  let base :=
    if dictGetTruthy "archive".data parent ∧ dictGetTruthy "important".data child then
      base ++ [("archive".data, "important".data)] else base
  -- special case: delete/trash in parent but star in child
  let base :=
    if (dictGetTruthy "delete".data parent ∨ dictGetTruthy "trash".data parent) ∧
        dictGetTruthy "star".data child then
      base ++ [("delete/trash".data, "star".data)] else base
  -- special case: different archive states
  let parentArchives := (dictGet "archive".data parent).getD (.pbool false)
  let childArchives := (dictGet "archive".data child).getD (.pbool false)
  if dictMem "archive".data parent ∧ dictMem "archive".data child then
    if ¬pyBeq parentArchives childArchives then
      if pyTruthy parentArchives then base ++ [("archive=true".data, "archive=false".data)]
      else base ++ [("archive=false".data, "archive=true".data)]
    else base
  else if pyTruthy parentArchives ∧ ¬dictMem "archive".data child then
    -- parent archives but child does not specify: warning-level per the
    -- source comment (but see `analyze_merge_safety` below)
    base ++ [("archive".data, "no-archive-specified".data)]
  else if ¬pyTruthy parentArchives ∧ dictGetTruthy "archive".data child then
    base ++ [("no-archive".data, "archive".data)]
  else base

/-- `InferenceSafety._get_dangerous_inherited_actions`. -/
def getDangerousInheritedActions (parent : Rule) : List (List Char) :=
  dangerousToInherit.filter fun action => dictGetTruthy action parent

/-- `InferenceSafety._check_forwarding_conflict`. -/
def checkForwardingConflict (parent child : Rule) : Option (List Char) :=
  let parentForward := dictGet "forward".data parent
  let childForward := dictGet "forward".data child
  let pTruthy := match parentForward with | some v => pyTruthy v | none => false
  let cTruthy := match childForward with | some v => pyTruthy v | none => false
  if pTruthy && cTruthy then
    match parentForward, childForward with
    | some pv, some cv =>
        if ¬pyBeq pv cv then
          some ("Parent forwards to ".data ++ pyToStr pv ++ ", child to ".data ++ pyToStr cv)
        else none
    | _, _ => none
  else if pTruthy && !cTruthy then
    if isSecuritySensitive child then
      match parentForward with
      | some pv => some ("Security-sensitive email would be forwarded to ".data ++ pyToStr pv)
      | none => none
    else none
  else none

/-- Label keyword buckets of `_check_label_compatibility`. -/
def securityLabels : List (List Char) :=
  ["security".data, "auth".data, "verification".data, "important".data, "urgent".data]

/-- Label keyword buckets of `_check_label_compatibility`. -/
def automatedLabels : List (List Char) :=
  ["automated".data, "notification".data, "no-reply".data, "newsletter".data,
   "marketing".data]

/-- `[label] if isinstance(label, str) else label` (labels are strings or
lists of strings in the data handled here). -/
def toLabelList : PyVal → List PyVal
  | .pstr s => [.pstr s]
  | .plist l => l
  | v => [v]

/-- Does any label of the list mention any keyword of the bucket? -/
def labelsMention (bucket : List (List Char)) (labels : List PyVal) : Bool :=
  labels.any fun lab => bucket.any fun kw => isSubstrOf kw (lowerStr (pyToStr lab))

/-- `InferenceSafety._check_label_compatibility`. -/
def checkLabelCompatibility (parent child : Rule) : Option (List Char) :=
  let parentLabel := (dictGet "label".data parent).getD (.pstr [])
  let childLabel := (dictGet "label".data child).getD (.pstr [])
  if ¬pyTruthy parentLabel ∨ ¬pyTruthy childLabel then none
  else
    let parentLabels := toLabelList parentLabel
    let childLabels := toLabelList childLabel
    let parentIsSecurity := labelsMention securityLabels parentLabels
    let childIsSecurity := labelsMention securityLabels childLabels
    let parentIsAutomated := labelsMention automatedLabels parentLabels
    let childIsAutomated := labelsMention automatedLabels childLabels
    if parentIsAutomated ∧ childIsSecurity then
      some "Parent appears automated, child appears security-related".data
    else if parentIsSecurity ∧ childIsAutomated then
      some "Parent appears security-related, child appears automated".data
    else if ¬pyBeq parentLabel childLabel ∧
        ¬parentLabels.any (fun p => childLabels.any fun c => pyBeq p c) then
      some "Different labels suggest different purposes".data
    else none

/-- Severity levels of a safety verdict. -/
inductive Sev where
  | low
  | medium
  | high
  | critical
deriving DecidableEq

/-- The result of `analyze_merge_safety`. -/
structure SafetyVerdict where
  safe : Bool
  confidence : Int
  warnings : List (List Char)
  severity : Sev
deriving DecidableEq

/-- Warning-string rendering of one conflict pair (`**p vs c**` for
archive-related pairs, `p vs c` otherwise). -/
def conflictStr (p c : List Char) : List Char :=
  if isSubstrOf "archive".data (lowerStr p) ∨ isSubstrOf "archive".data (lowerStr c) then
    "**".data ++ p ++ " vs ".data ++ c ++ "**".data
  else p ++ " vs ".data ++ c

/-- `InferenceSafety.analyze_merge_safety`. -/
def analyzeMergeSafety (parent child : Rule) : SafetyVerdict :=
  let warnings : List (List Char) := []
  let confidence : Int := 100
  let severity : Sev := .low
  -- security sensitivity of the child
  let (warnings, confidence, severity) :=
    if isSecuritySensitive child then
      let warnings := warnings ++
        ["⚠️  Security-sensitive: Contains security-related keywords".data]
      let confidence := confidence - 40
      let severity := Sev.high
      let dangerousInherited := getDangerousInheritedActions parent
      if ¬dangerousInherited.isEmpty then
        (warnings ++
          ["⛔ Would inherit dangerous actions for security email: ".data ++
            List.intercalate ", ".data dangerousInherited],
         confidence - 30, Sev.critical)
      else (warnings, confidence, severity)
    else (warnings, confidence, severity)
  -- action conflicts
  let conflicts := getActionConflicts parent child
  let (warnings, confidence, severity) :=
    if ¬conflicts.isEmpty then
      let conflictStrs := conflicts.map fun p => conflictStr p.1 p.2
      let hasArchiveConflict := conflicts.any fun p =>
        isSubstrOf "archive".data (lowerStr p.1) ∨ isSubstrOf "archive".data (lowerStr p.2)
      let warnings := warnings ++
        ["⚠️  Action conflicts: ".data ++ List.intercalate ", ".data conflictStrs]
      if hasArchiveConflict then
        (warnings ++
          ["⛔ CRITICAL: Different archive states - messages would end up in different places!".data],
         confidence - 40, Sev.critical)
      else
        (warnings, confidence - 20 * conflicts.length,
         if severity = .low then Sev.medium else severity)
    else (warnings, confidence, severity)
  -- forwarding conflicts
  let (warnings, confidence, severity) :=
    match checkForwardingConflict parent child with
    | some msg =>
        (warnings ++ ["⚠️  Forwarding conflict: ".data ++ msg], confidence - 50, Sev.critical)
    | none => (warnings, confidence, severity)
  -- label compatibility
  let (warnings, confidence) :=
    match checkLabelCompatibility parent child with
    | some msg => (warnings ++ ["ℹ️  Label mismatch: ".data ++ msg], confidence - 10)
    | none => (warnings, confidence)
  let safe := confidence > 50 ∧ severity ≠ .critical
  ⟨safe, max 0 confidence, warnings, severity⟩

/-! ### hierarchy detection (`xml_converter.py`) -/

/-- The condition-key set of `_get_filter_conditions`. -/
def conditionKeys : List (List Char) :=
  ["from".data, "to".data, "cc".data, "bcc".data, "subject".data, "has".data,
   "does_not_have".data, "list".data, "has_attachment".data, "filename".data,
   "category".data, "size".data, "larger".data, "smaller".data, "rfc822msgid".data,
   "deliveredto".data, "is".data]

/-- The values of `XML_TO_YAML_MAP`. -/
def xmlToYamlValues : List (List Char) :=
  ["from".data, "to".data, "subject".data, "has".data, "does_not_have".data,
   "label".data, "archive".data, "important".data, "delete".data, "read".data,
   "not_important".data, "not_spam".data, "star".data, "trash".data, "forward".data]

/-- The action/bookkeeping keys excluded by `_get_filter_conditions`. -/
def nonConditionKeys : List (List Char) :=
  ["label".data, "archive".data, "delete".data, "read".data, "star".data,
   "important".data, "not_important".data, "not_spam".data, "trash".data,
   "forward".data, "_gmail_raw".data]

/-- `GmailFilterConverter._get_filter_conditions`. -/
def getFilterConditions (filt : Rule) : Rule :=
  filt.filter fun p =>
    (conditionKeys.contains p.1 || xmlToYamlValues.contains p.1) &&
      !nonConditionKeys.contains p.1

/-- `GmailFilterConverter._has_value_extends` (string case; any dict
operand means "cannot compare", other value shapes do not occur for the
`has` field). -/
def hasValueExtends (parentValue childValue : PyVal) : Bool :=
  match parentValue, childValue with
  | .pdict _, _ => false
  | _, .pdict _ => false
  | .pstr p, .pstr c =>
      if isSubstrOf p c then true
      else if c.head? = some '(' ∧ isSubstrOf andTok c then
        let childClean := (stripSet ['(', ')'] c).filter (fun ch => ch ≠ dq)
        let parentClean := p.filter (fun ch => ch ≠ dq)
        let parts := (splitAllSub andTok childClean).map stripWs
        parts.any (fun part => part = parentClean)
      else false
  | _, _ => false

/-- `GmailFilterConverter._basic_child_check`: the child's conditions must
contain all parent conditions (the `has` field may extend), and the child
must have strictly more condition fields. -/
def basicChildCheck (parentConditions childConditions : Rule) : Bool :=
  (parentConditions.all fun p =>
    match dictGet p.1 childConditions with
    | none => false
    | some cv =>
        if p.1 = "has".data then hasValueExtends p.2 cv
        else pyBeq p.2 cv) &&
  parentConditions.length < childConditions.length

/-- Inference strategies. -/
inductive Strategy where
  | conservative
  | aggressive
  | interactive
deriving DecidableEq

/-- The conservative extra label gate at the end of `_is_child_of`
(`true` means the pairing is kept). -/
def conservativeLabelGate (parent child : Rule) : Bool :=
  let parentLabel := dictGet "label".data parent
  let childLabel := dictGet "label".data child
  match parentLabel, childLabel with
  | some pl, some cl =>
      if pyTruthy pl && pyTruthy cl && !pyBeq pl cl then
        let inList := match cl with
          | .plist l => l.any fun x => pyBeq pl x
          | _ => false
        if !inList then
          match pl, cl with
          | .pstr ps, .pstr cs => isSubstrOf ps cs || List.isPrefixOf ps cs
          | _, _ => false
        else true
      else true
  | _, _ => true

/-- `GmailFilterConverter._is_child_of` (the non-interactive gate: basic
checks plus strategy-dependent safety analysis). -/
def isChildOf (strategy : Strategy) (parent child parentConditions childConditions : Rule) :
    Bool :=
  if ¬basicChildCheck parentConditions childConditions then false
  else
    match strategy with
    | .conservative =>
        let sa := analyzeMergeSafety parent child
        if ¬sa.safe ∨ ¬sa.warnings.isEmpty then false
        else conservativeLabelGate parent child
    | .aggressive =>
        let sa := analyzeMergeSafety parent child
        sa.severity ≠ .critical
    | .interactive => true

/-- The value returned by `_interactive_merge_decision`:
`True` / `False` / `'accept_all'` / `'skip_all'`. -/
inductive MergeResp where
  | accept
  | reject
  | acceptAllR
  | skipAllR
deriving DecidableEq

/-- One detected hierarchy: a parent index and its child indices. -/
structure Hier where
  parent : Nat
  children : List Nat
deriving DecidableEq

/-- The inner child-scan loop of `_detect_hierarchies` for one candidate
parent.  `ans` abstracts the return value of `_interactive_merge_decision`
for a (parent index, child index) pair; the `skip_all`/`accept_all` batch
flags short-circuit it exactly as the flag checks at the top of
`_interactive_merge_decision` do.  Returns the accepted children, the
updated used set, and the updated batch flags. -/
def scanChildren (strategy : Strategy) (ans : Nat → Nat → MergeResp) (parentIdx : Nat)
    (parent parentConditions : Rule) :
    List (Nat × Rule × Rule) → List Nat → Bool → Bool →
      List Nat × List Nat × Bool × Bool
  | [], used, skipA, accA => ([], used, skipA, accA)
  | (childIdx, child, childConditions) :: rest, used, skipA, accA =>
      if used.contains childIdx then
        scanChildren strategy ans parentIdx parent parentConditions rest used skipA accA
      else if ¬basicChildCheck parentConditions childConditions then
        scanChildren strategy ans parentIdx parent parentConditions rest used skipA accA
      else
        match strategy with
        | .interactive =>
            if skipA then
              -- `skip_all` flag: `_interactive_merge_decision` returns False
              scanChildren strategy ans parentIdx parent parentConditions rest used skipA accA
            else if accA then
              -- `accept_all` flag: the decision is True unless a remembered
              -- `skip_all` pattern fires; both outcomes are oracle-driven
              match ans parentIdx childIdx with
              | .reject =>
                  scanChildren strategy ans parentIdx parent parentConditions rest used
                    skipA accA
              | _ =>
                  let (cs, used', skipA', accA') :=
                    scanChildren strategy ans parentIdx parent parentConditions rest
                      (childIdx :: used) skipA accA
                  (childIdx :: cs, used', skipA', accA')
            else
              match ans parentIdx childIdx with
              | .skipAllR =>
                  scanChildren strategy ans parentIdx parent parentConditions rest used
                    true accA
              | .acceptAllR =>
                  let (cs, used', skipA', accA') :=
                    scanChildren strategy ans parentIdx parent parentConditions rest
                      (childIdx :: used) skipA true
                  (childIdx :: cs, used', skipA', accA')
              | .accept =>
                  let (cs, used', skipA', accA') :=
                    scanChildren strategy ans parentIdx parent parentConditions rest
                      (childIdx :: used) skipA accA
                  (childIdx :: cs, used', skipA', accA')
              | .reject =>
                  scanChildren strategy ans parentIdx parent parentConditions rest used
                    skipA accA
        | _ =>
            if isChildOf strategy parent child parentConditions childConditions then
              let used1 := if strategy = .aggressive then childIdx :: used else used
              let (cs, used', skipA', accA') :=
                scanChildren strategy ans parentIdx parent parentConditions rest used1
                  skipA accA
              (childIdx :: cs, used', skipA', accA')
            else
              scanChildren strategy ans parentIdx parent parentConditions rest used skipA accA

/-- The outer parent loop of `_detect_hierarchies`. -/
def parentLoop (strategy : Strategy) (ans : Nat → Nat → MergeResp) :
    List (Nat × Rule × Rule) → List Nat → Bool → Bool → List Hier
  | [], _, _, _ => []
  | (parentIdx, parent, parentConditions) :: rest, used, skipA, accA =>
      if used.contains parentIdx then parentLoop strategy ans rest used skipA accA
      else
        let (children, used1, skipA1, accA1) :=
          scanChildren strategy ans parentIdx parent parentConditions rest used skipA accA
        if children.isEmpty then parentLoop strategy ans rest used1 skipA1 accA1
        else
          let used2 := parentIdx :: used1
          let used3 :=
            if strategy = .conservative ∨ strategy = .interactive then children ++ used2
            else used2
          ⟨parentIdx, children⟩ :: parentLoop strategy ans rest used3 skipA1 accA1

/-- Stable insertion (by condition count) used to model Python's stable
`list.sort(key=lambda x: len(x[2]))`. -/
def insertByCount (x : Nat × Rule × Rule) :
    List (Nat × Rule × Rule) → List (Nat × Rule × Rule)
  | [] => [x]
  | y :: ys => if y.2.2.length ≤ x.2.2.length then y :: insertByCount x ys else x :: y :: ys

/-- Stable ascending sort by condition count. -/
def sortByCount (l : List (Nat × Rule × Rule)) : List (Nat × Rule × Rule) :=
  l.foldl (fun acc x => insertByCount x acc) []

/-- `GmailFilterConverter._detect_hierarchies`.  `ans` abstracts the user
decisions of interactive mode (unused by the other strategies). -/
def detectHierarchies (strategy : Strategy) (ans : Nat → Nat → MergeResp)
    (filters : List Rule) : List Hier :=
  let indexed := filters.enum.map fun p => (p.1, p.2, getFilterConditions p.2)
  parentLoop strategy ans (sortByCount indexed) [] false false

/-! ### `_build_more_structures` and `_simplify_has_condition` -/

/-- Second block of `_simplify_has_condition`: remove a multi-word parent
phrase from a parenthesised AND of the child. -/
def simplifyHasB2 (p c : List Char) : Option PyVal :=
  if p.contains ' ' && isSubstrOf p c then
    if c.head? = some '(' ∧ c.getLast? = some ')' then
      let inner := (c.drop 1).dropLast
      let parts := splitAllSub andTok inner
      let remaining := parts.filter fun q => ¬(stripWs q = stripWs p)
      if remaining.length < parts.length then
        match remaining with
        | [r] => some (.pstr (stripWs r))
        | [] => none
        | _ => some (.pstr ('(' :: List.intercalate andTok remaining ++ [')']))
      else none
    else none
  else none

/-- `GmailFilterConverter._simplify_has_condition`. -/
def simplifyHasCondition (parentHas childHas : PyVal) : Option PyVal :=
  match parentHas, childHas with
  | .pdict _, c => some c
  | _, .pdict d => some (.pdict d)
  | .pstr p, .pstr c =>
      if c.head? = some '(' ∧ isSubstrOf andTok c then
        let childClean := stripSet ['(', ')'] c
        let parts := (splitAllSub andTok childClean).map stripWs
        let parentClean := stripSet [dq] p
        let remaining := parts.filter fun part =>
          let partClean := stripSet [dq] part
          partClean ≠ parentClean ∧ ¬isSubstrOf parentClean partClean
        if remaining.length < parts.length then
          match remaining with
          | [r] => some (.pstr r)
          | [] => simplifyHasB2 p c
          | _ => some (.pstr ('(' :: List.intercalate andTok remaining ++ [')']))
        else simplifyHasB2 p c
      else simplifyHasB2 p c
  | _, _ => none

/-- The per-child rewriting of `_build_more_structures`: inherited
condition fields are removed (or, for `has`, simplified), and
`_gmail_raw` entries identical to the parent's are dropped. -/
def buildChild (parent child : Rule) : Rule :=
  let parentConditions := getFilterConditions parent
  let c1 := parentConditions.foldl
    (fun c kv =>
      if dictMem kv.1 c then
        if kv.1 = "has".data then
          let childHas := (dictGet kv.1 c).getD (.pbool false)
          let parentHas := (dictGet kv.1 parent).getD (.pbool false)
          if hasValueExtends parentHas childHas then
            match simplifyHasCondition parentHas childHas with
            | some simplified =>
                if pyTruthy simplified && !pyBeq simplified childHas then
                  dictSet kv.1 simplified c
                else c
            | none => c
          else c
        else if pyBeq ((dictGet kv.1 c).getD (.pbool false)) kv.2 then dictDel kv.1 c
        else c
      else c)
    child
  match dictGet "_gmail_raw".data parent, dictGet "_gmail_raw".data c1 with
  | some (.pdict praw), some (.pdict craw) =>
      let craw2 := craw.filter fun kv =>
        !(match dictGet kv.1 praw with
          | some pv => pyBeq pv kv.2
          | none => false)
      if craw2.isEmpty then dictDel "_gmail_raw".data c1
      else dictSet "_gmail_raw".data (.pdict craw2) c1
  | _, _ => c1

/-- `GmailFilterConverter._build_more_structures`. -/
def buildMoreStructures (hierarchies : List Hier) (filters : List Rule) : List Rule :=
  let step := hierarchies.foldl
    (fun (acc : List Rule × List Nat) h =>
      let parent := (filters.get? h.parent).getD []
      let moreList := h.children.map fun ci => buildChild parent ((filters.get? ci).getD [])
      let parent' :=
        if ¬moreList.isEmpty then dictSet "more".data (.plist (moreList.map .pdict)) parent
        else parent
      (acc.1 ++ [parent'], acc.2 ++ h.children ++ [h.parent]))
    ([], [])
  step.1 ++ (filters.enum.filter fun p => !step.2.contains p.1).map (·.2)

/-! ### `_merge_identical_filters` -/

/-- The hashable signature shape built by `make_hashable`: both Python
lists and (sorted) dicts become tuples, so they are identified, exactly as
in the source. -/
inductive HVal where
  | hstr : List Char → HVal
  | hbool : Bool → HVal
  | htup : List HVal → HVal

mutual

/-- Equality of hashable signatures (Python `==` on the tuples built by
`make_hashable`). -/
def hBeq : HVal → HVal → Bool
  | .hstr a, .hstr b => a == b
  | .hbool a, .hbool b => a == b
  | .htup a, .htup b => hBeqList a b
  | _, _ => false

/-- Elementwise equality of `HVal` lists. -/
def hBeqList : List HVal → List HVal → Bool
  | [], [] => true
  | x :: xs, y :: ys => hBeq x y && hBeqList xs ys
  | _, _ => false

end

/-- Python string comparison (`<=` by code points, lexicographic). -/
def lexLe : List Char → List Char → Bool
  | [], _ => true
  | _ :: _, [] => false
  | x :: xs, y :: ys => if x = y then lexLe xs ys else decide (x.val < y.val)

/-- Stable insertion by key for `sorted(...)` over (key, value) pairs with
distinct keys. -/
def insertPairByKey (x : List Char × HVal) :
    List (List Char × HVal) → List (List Char × HVal)
  | [] => [x]
  | y :: ys => if lexLe y.1 x.1 then y :: insertPairByKey x ys else x :: y :: ys

/-- `sorted` by key over (key, value) pairs. -/
def sortPairsByKey (l : List (List Char × HVal)) : List (List Char × HVal) :=
  l.foldl (fun acc x => insertPairByKey x acc) []

mutual

/-- `make_hashable` of `_merge_identical_filters`: dicts become tuples of
`(key, make_hashable(value))` pairs sorted by key; lists become tuples in
order. -/
def makeHashable : PyVal → HVal
  | .pstr s => .hstr s
  | .pbool b => .hbool b
  | .plist l => .htup (makeHashableL l)
  | .pdict d => .htup ((sortPairsByKey (makeHashableD d)).map fun p => .htup [.hstr p.1, p.2])

/-- `make_hashable` over the elements of a list. -/
def makeHashableL : List PyVal → List HVal
  | [] => []
  | x :: xs => makeHashable x :: makeHashableL xs

/-- `make_hashable` over the values of a dict. -/
def makeHashableD : List (List Char × PyVal) → List (List Char × HVal)
  | [] => []
  | (k, v) :: xs => (k, makeHashable v) :: makeHashableD xs

end

/-- The signature of a filter in `_merge_identical_filters`: everything
except the `label` key, in hashable (key-sorted) form. -/
def filterSig (filt : Rule) : HVal :=
  makeHashable (.pdict (filt.filter fun kv => kv.1 ≠ "label".data))

/-- Label normalisation of `_merge_identical_filters`: a missing label is
`[]`, a non-list label is `[label]` when truthy and `[]` otherwise. -/
def normLabels : Option PyVal → List PyVal
  | none => []
  | some (.plist l) => l
  | some v => if pyTruthy v then [v] else []

/-- Order-preserving de-duplication of labels (Python `seen_labels` set,
membership by `==`). -/
def uniqueLabels (labels : List PyVal) : List PyVal :=
  labels.foldl (fun acc x => if acc.any (fun y => pyBeq y x) then acc else acc ++ [x]) []

/-- `GmailFilterConverter._merge_identical_filters`. -/
def mergeIdenticalFilters (filters : List Rule) : List Rule :=
  let step := filters.foldl
    (fun (acc : List Rule × List (HVal × Nat)) filt =>
      let (merged, seen) := acc
      let signature := filterSig filt
      match seen.find? (fun p => hBeq p.1 signature) with
      | some p =>
          let existingIdx := p.2
          let existing := (merged.get? existingIdx).getD []
          let existingLabels := normLabels (dictGet "label".data existing)
          let newLabels := normLabels (dictGet "label".data filt)
          let unique := uniqueLabels (existingLabels ++ newLabels)
          let merged' :=
            match unique with
            | [] => merged
            | [u] => merged.set existingIdx (dictSet "label".data u existing)
            | _ => merged.set existingIdx (dictSet "label".data (.plist unique) existing)
          (merged', seen)
      | none => (merged ++ [filt], seen ++ [(signature, merged.length)]))
    ([], [])
  step.1

/-! ### `_interactive_merge_decision` -/

/-- Decision-memory lookup (`InferenceSafety.get_remembered_decision`). -/
def memGet (k : List Char) : List (List Char × List Char) → Option (List Char)
  | [] => none
  | (k', v) :: rest => if k' = k then some v else memGet k rest

/-- Decision-memory update (`InferenceSafety.remember_decision`). -/
def memSet (k v : List Char) : List (List Char × List Char) → List (List Char × List Char)
  | [] => [(k, v)]
  | (k', w) :: rest => if k' = k then (k', v) :: rest else (k', w) :: memSet k v rest

/-- Order-preserving de-duplication of a key list (Python `set(...)` before
`sorted`; keys are unique in practice). -/
def dedupKeys (keys : List (List Char)) : List (List Char) :=
  keys.foldl (fun acc k => if acc.contains k then acc else acc ++ [k]) []

/-- Stable insertion for `sorted` over strings. -/
def insertLex (x : List Char) : List (List Char) → List (List Char)
  | [] => [x]
  | y :: ys => if lexLe y x then y :: insertLex x ys else x :: y :: ys

/-- `str(sorted(keys))`: the Python rendering of the sorted key list. -/
def sortedKeyRepr (keys : List (List Char)) : List Char :=
  let sorted := (dedupKeys keys).foldl (fun acc k => insertLex k acc) []
  '[' :: List.intercalate ", ".data (sorted.map fun k => sq :: k ++ [sq]) ++ [']']

/-- `InferenceSafety.create_pattern_key`. -/
def createPatternKey (parent child : Rule) : List Char :=
  sortedKeyRepr (parent.map (·.1)) ++ "_".data ++ sortedKeyRepr (child.map (·.1)) ++
    "_".data ++ (if isSecuritySensitive child then "sec".data else "nosec".data) ++
    "_".data ++
    (if ¬(getActionConflicts parent child).isEmpty then "conflict".data
     else "noconflict".data)

/-- The batch short-circuit at the top of `_interactive_merge_decision`:
when a `skip_all`/`accept_all` flag is set, the decision is made without
prompting (a remembered `skip_all` pattern wins over the `accept_all`
flag). -/
def batchResult (parent child : Rule) (memory : List (List Char × List Char))
    (skipAll acceptAll : Bool) : Option MergeResp :=
  let pk := createPatternKey parent child
  let remembered := memGet pk memory
  if (skipAll || acceptAll) && (remembered = some "skip_all".data || skipAll) then
    some .reject
  else if (skipAll || acceptAll) && (remembered = some "accept_all".data || acceptAll) then
    some .accept
  else none

/-- `GmailFilterConverter._interactive_merge_decision`, modelled over an
explicit input stream (one list entry per `input()` line; an exhausted
stream raises `EOFError`, modelled as `Except.error`).  The first prompt's
`input()` sits in a `try/except (EOFError, KeyboardInterrupt)` that
returns `False`; the `input()` after the help text does not, so end of
input there propagates the exception. -/
def interactiveMergeDecision (parent child : Rule)
    (memory : List (List Char × List Char)) (skipAll acceptAll : Bool) :
    List (List Char) →
      Except Unit (MergeResp × List (List Char) × List (List Char × List Char))
  | [] =>
      match batchResult parent child memory skipAll acceptAll with
      | some r => .ok (r, [], memory)
      | none =>
          -- EOFError / KeyboardInterrupt at the main prompt: caught,
          -- "Skipping..." printed, False returned
          .ok (.reject, [], memory)
  | line :: rest =>
      match batchResult parent child memory skipAll acceptAll with
      | some r => .ok (r, line :: rest, memory)
      | none =>
          let pk := createPatternKey parent child
          let response := lowerStr (stripWs line)
          if response = "h".data then
            match rest with
            | [] => .error ()   -- unguarded `input()` after the help text
            | _ :: rest2 =>
                interactiveMergeDecision parent child memory skipAll acceptAll rest2
          else if response = "y".data ∨ response = "yes".data then
            .ok (.accept, rest, memSet pk "yes".data memory)
          else if response = "a".data ∨ response = "all".data then
            .ok (.acceptAllR, rest, memSet pk "accept_all".data memory)
          else if response = "s".data ∨ response = "skip".data then
            .ok (.skipAllR, rest, memSet pk "skip_all".data memory)
          else
            .ok (.reject, rest, memSet pk "no".data memory)

/-! ### term shapes used to state the universal parsing claims -/

/-- Join a list of strings with a separator (the shape of a well-formed
`a OR b OR c` search string). -/
def joinSep (sep : List Char) : List (List Char) → List Char
  | [] => []
  | [t] => t
  | t :: rest => t ++ sep ++ joinSep sep rest

/-- A character that cannot take part in any operator syntax: not
whitespace and none of `| { ( -`. -/
def plainChar (c : Char) : Bool :=
  !isWSp c && c ≠ '|' && c ≠ '{' && c ≠ '(' && c ≠ '-'

/-- A plain character or a quote. -/
def orTermChar (c : Char) : Bool :=
  plainChar c || c = dq || c = sq

/-- A term of a well-formed OR-string with no further operators: nonempty,
made of plain characters and quotes, and stable under a second quote
strip (so "quote-stripped" is unambiguous). -/
def orTerm (t : List Char) : Bool :=
  !t.isEmpty && t.all orTermChar && (stripQuotes (stripQuotes t) == stripQuotes t)

/-- A term of a pipe-shorthand OR string: nonempty, plain characters and
quotes (quotes are allowed precisely to show they are *kept*). -/
def pipeTerm (t : List Char) : Bool :=
  !t.isEmpty && t.all orTermChar

/-! ## Theorems -/

mutual

theorem pyBeq_iff : ∀ a b : PyVal, pyBeq a b = true ↔ a = b
  | .pstr a, .pstr b => by simp [pyBeq]
  | .pbool a, .pbool b => by simp [pyBeq]
  | .plist a, .plist b => by
      simp only [pyBeq, PyVal.plist.injEq]
      exact pyBeqList_iff a b
  | .pdict a, .pdict b => by
      simp only [pyBeq, PyVal.pdict.injEq]
      exact pyBeqDict_iff a b
  | .pstr a, .pbool b => by simp [pyBeq]
  | .pstr a, .plist b => by simp [pyBeq]
  | .pstr a, .pdict b => by simp [pyBeq]
  | .pbool a, .pstr b => by simp [pyBeq]
  | .pbool a, .plist b => by simp [pyBeq]
  | .pbool a, .pdict b => by simp [pyBeq]
  | .plist a, .pstr b => by simp [pyBeq]
  | .plist a, .pbool b => by simp [pyBeq]
  | .plist a, .pdict b => by simp [pyBeq]
  | .pdict a, .pstr b => by simp [pyBeq]
  | .pdict a, .pbool b => by simp [pyBeq]
  | .pdict a, .plist b => by simp [pyBeq]

theorem pyBeqList_iff : ∀ a b : List PyVal, pyBeqList a b = true ↔ a = b
  | [], [] => by simp [pyBeqList]
  | x :: xs, y :: ys => by
      simp only [pyBeqList, Bool.and_eq_true, List.cons.injEq]
      exact and_congr (pyBeq_iff x y) (pyBeqList_iff xs ys)
  | [], _ :: _ => by simp [pyBeqList]
  | _ :: _, [] => by simp [pyBeqList]

theorem pyBeqDict_iff : ∀ a b : List (List Char × PyVal), pyBeqDict a b = true ↔ a = b
  | [], [] => by simp [pyBeqDict]
  | (k1, v1) :: xs, (k2, v2) :: ys => by
      simp only [pyBeqDict, Bool.and_eq_true, List.cons.injEq, Prod.mk.injEq]
      constructor
      · rintro ⟨⟨hk, hv⟩, ht⟩
        exact ⟨⟨by simpa using hk, (pyBeq_iff v1 v2).mp hv⟩, (pyBeqDict_iff xs ys).mp ht⟩
      · rintro ⟨⟨hk, hv⟩, ht⟩
        exact ⟨⟨by simp [hk], (pyBeq_iff v1 v2).mpr hv⟩, (pyBeqDict_iff xs ys).mpr ht⟩
  | [], _ :: _ => by simp [pyBeqDict]
  | _ :: _, [] => by simp [pyBeqDict]

end

theorem pyBeq_refl (a : PyVal) : pyBeq a a = true :=
  (pyBeq_iff a a).mpr rfl

theorem ne_of_pyBeq_false {a b : PyVal} (h : pyBeq a b = false) : a ≠ b := by
  intro he
  rw [he, pyBeq_refl] at h
  exact absurd h (by simp)

mutual

theorem hBeq_iff : ∀ a b : HVal, hBeq a b = true ↔ a = b
  | .hstr a, .hstr b => by simp [hBeq]
  | .hbool a, .hbool b => by simp [hBeq]
  | .htup a, .htup b => by
      simp only [hBeq, HVal.htup.injEq]
      exact hBeqList_iff a b
  | .hstr a, .hbool b => by simp [hBeq]
  | .hstr a, .htup b => by simp [hBeq]
  | .hbool a, .hstr b => by simp [hBeq]
  | .hbool a, .htup b => by simp [hBeq]
  | .htup a, .hstr b => by simp [hBeq]
  | .htup a, .hbool b => by simp [hBeq]

theorem hBeqList_iff : ∀ a b : List HVal, hBeqList a b = true ↔ a = b
  | [], [] => by simp [hBeqList]
  | x :: xs, y :: ys => by
      simp only [hBeqList, Bool.and_eq_true, List.cons.injEq]
      exact and_congr (hBeq_iff x y) (hBeqList_iff xs ys)
  | [], _ :: _ => by simp [hBeqList]
  | _ :: _, [] => by simp [hBeqList]

end

/-! ### length bounds for the recursive parser -/

theorem stripQuotes_length_le (v : List Char) : (stripQuotes v).length ≤ v.length := by
  unfold stripQuotes
  split
  · simp only [List.length_dropLast, List.length_drop]
    omega
  · exact le_refl _

theorem isPrefixOf_length_le {a b : List Char} (h : a.isPrefixOf b) :
    a.length ≤ b.length := by
  rw [List.isPrefixOf_iff_prefix] at h
  exact h.length_le

theorem trySepHere_some {sep g1 s a b : List Char} (hsep : sep ≠ [])
    (h : trySepHere sep g1 s = some (a, b)) :
    a = g1 ∧ b.length + 3 ≤ s.length ∧ 3 ≤ s.length := by
  have hsl : 1 ≤ sep.length := List.length_pos.mpr hsep
  dsimp only [trySepHere] at h
  set w1 := s.takeWhile isWSp with hw1def
  by_cases c1 : w1.isEmpty = true
  · rw [if_pos c1] at h; exact absurd h (by simp)
  rw [if_neg c1] at h
  set r1 := s.drop w1.length with hr1def
  by_cases c2 : sep.isPrefixOf r1 = true
  case neg => rw [if_neg c2] at h; exact absurd h (by simp)
  rw [if_pos c2] at h
  set r2 := r1.drop sep.length with hr2def
  set w2 := r2.takeWhile isWSp with hw2def
  by_cases c3 : w2.isEmpty = true
  · rw [if_pos c3] at h; exact absurd h (by simp)
  rw [if_neg c3] at h
  set g2 := r2.drop w2.length with hg2def
  have f1 : 1 ≤ w1.length :=
    List.length_pos.mpr (by simpa [List.isEmpty_iff] using c1)
  have f2 : w1.length ≤ s.length := by
    rw [hw1def]; exact (List.takeWhile_sublist _).length_le
  have f3 : sep.length ≤ r1.length := isPrefixOf_length_le c2
  have f4 : 1 ≤ w2.length :=
    List.length_pos.mpr (by simpa [List.isEmpty_iff] using c3)
  have f5 : w2.length ≤ r2.length := by
    rw [hw2def]; exact (List.takeWhile_sublist _).length_le
  have fr1 : r1.length = s.length - w1.length := by rw [hr1def]; simp
  have fr2 : r2.length = r1.length - sep.length := by rw [hr2def]; simp
  have fg2 : g2.length = r2.length - w2.length := by rw [hg2def]; simp
  by_cases c4 : g2.isEmpty = true
  · rw [if_pos c4] at h
    cases hgl : w2.getLast? with
    | none => rw [hgl] at h; exact absurd h (by simp)
    | some wc =>
        rw [hgl] at h
        dsimp only at h
        by_cases c5 : 2 ≤ w2.length ∧ wc ≠ '\n'
        · rw [if_pos c5] at h
          obtain ⟨c51, -⟩ := c5
          obtain ⟨ha, hb⟩ := Prod.mk.injEq .. ▸ Option.some.inj h
          have hblen : b.length = 1 := by rw [← hb]; rfl
          exact ⟨ha.symm, by omega, by omega⟩
        · rw [if_neg c5] at h; exact absurd h (by simp)
  · rw [if_neg c4] at h
    by_cases c6 : g2.contains '\n' = true
    · rw [if_pos c6] at h; exact absurd h (by simp)
    · rw [if_neg c6] at h
      obtain ⟨ha, hb⟩ := Prod.mk.injEq .. ▸ Option.some.inj h
      have hblen : b.length = g2.length := by rw [← hb]
      exact ⟨ha.symm, by omega, by omega⟩

theorem sepScan_some {sep : List Char} (hsep : sep ≠ []) :
    ∀ (s acc g1 g2 : List Char), sepScan sep acc s = some (g1, g2) →
      g1.length + 3 ≤ acc.length + s.length ∧ g2.length + 4 ≤ acc.length + s.length := by
  intro s
  induction s with
  | nil => intro acc g1 g2 h; exact absurd h (by simp [sepScan])
  | cons c rest ih =>
      intro acc g1 g2 h
      dsimp only [sepScan] at h
      split at h
      · exact absurd h (by simp)
      · split at h
        · rename_i r heq
          cases h
          obtain ⟨ha, hb, hs⟩ := trySepHere_some hsep heq
          constructor
          · rw [ha]
            simp only [List.length_reverse, List.length_cons]
            omega
          · simp only [List.length_cons]
            omega
        · have := ih (c :: acc) g1 g2 h
          simp only [List.length_cons] at this ⊢
          omega

theorem matchSepSplit_some {sep s g1 g2 : List Char} (hsep : sep ≠ [])
    (h : matchSepSplit sep s = some (g1, g2)) :
    g1.length + 3 ≤ s.length ∧ g2.length + 4 ≤ s.length := by
  have := sepScan_some hsep s [] g1 g2 h
  simpa using this

theorem splitOnceSub_decomp (sep : List Char) :
    ∀ s a b, splitOnceSub sep s = some (a, b) → s = a ++ sep ++ b := by
  intro s
  induction s with
  | nil =>
      intro a b h
      dsimp only [splitOnceSub] at h
      split at h
      · rename_i he
        cases h
        simp [List.isEmpty_iff.mp he]
      · exact absurd h (by simp)
  | cons c t ih =>
      intro a b h
      dsimp only [splitOnceSub] at h
      split at h
      · rename_i hp
        cases h
        rw [List.isPrefixOf_iff_prefix] at hp
        obtain ⟨u, hu⟩ := hp
        have hdrop : (c :: t).drop sep.length = u := by
          rw [← hu]; exact List.drop_left sep u
        rw [hdrop, ← hu]
        simp
      · cases he : splitOnceSub sep t with
        | none => rw [he] at h; exact absurd h (by simp)
        | some p =>
            rw [he] at h
            cases h
            have := ih p.1 p.2 he
            simp [this]

theorem stripWs_length_le' (s : List Char) : (stripWs s).length ≤ s.length :=
  stripWs_length_le s

theorem splitAllSubF_irrel {sep : List Char} (hsep : sep ≠ []) :
    ∀ (n : Nat) (s : List Char), s.length ≤ n → ∀ f1 f2, s.length < f1 → s.length < f2 →
      splitAllSubF f1 sep s = splitAllSubF f2 sep s := by
  intro n
  induction n using Nat.strong_induction_on with
  | _ n ih =>
      intro s hsn f1 f2 h1 h2
      obtain ⟨a, rfl⟩ : ∃ a, f1 = a + 1 := ⟨f1 - 1, by omega⟩
      obtain ⟨b, rfl⟩ : ∃ b, f2 = b + 1 := ⟨f2 - 1, by omega⟩
      dsimp only [splitAllSubF]
      cases heq : splitOnceSub sep s with
      | none => rfl
      | some p =>
          obtain ⟨x, y⟩ := p
          have hy := splitOnceSub_snd_lt sep hsep s x y heq
          dsimp only
          rw [ih y.length (by omega) y (le_refl _) a b (by omega) (by omega)]

theorem splitAllSub_unfold {sep : List Char} (hsep : sep ≠ []) (s : List Char) :
    splitAllSub sep s =
      match splitOnceSub sep s with
      | none => [s]
      | some (a, b) => a :: splitAllSub sep b := by
  unfold splitAllSub
  dsimp only [splitAllSubF]
  cases heq : splitOnceSub sep s with
  | none => rfl
  | some p =>
      obtain ⟨x, y⟩ := p
      have hy := splitOnceSub_snd_lt sep hsep s x y heq
      dsimp only
      rw [splitAllSubF_irrel hsep y.length y (le_refl _) s.length (y.length + 1)
        (by omega) (by omega)]
      rfl

theorem tailSplitF_irrel {tok : List Char} (htok : tok ≠ []) :
    ∀ (n : Nat) (t : List Char), t.length ≤ n → ∀ f1 f2, t.length < f1 → t.length < f2 →
      tailSplitF tok f1 t = tailSplitF tok f2 t := by
  intro n
  induction n using Nat.strong_induction_on with
  | _ n ih =>
      intro t htn f1 f2 h1 h2
      obtain ⟨a, rfl⟩ : ∃ a, f1 = a + 1 := ⟨f1 - 1, by omega⟩
      obtain ⟨b, rfl⟩ : ∃ b, f2 = b + 1 := ⟨f2 - 1, by omega⟩
      dsimp only [tailSplitF]
      split
      · cases heq : splitOnceSub tok t with
        | none => rfl
        | some p =>
            obtain ⟨x, y⟩ := p
            have hy := splitOnceSub_snd_lt tok htok t x y heq
            have hys : (stripWs y).length ≤ y.length := stripWs_length_le y
            dsimp only
            rw [ih (stripWs y).length (by omega) (stripWs y) (le_refl _) a b
              (by omega) (by omega)]
      · rfl

theorem tailSplit_unfold {tok : List Char} (htok : tok ≠ []) (t : List Char) :
    tailSplit tok t =
      if isSubstrOf tok t then
        match splitOnceSub tok t with
        | some (a, b) => stripWs a :: tailSplit tok (stripWs b)
        | none => [t]
      else [t] := by
  unfold tailSplit
  dsimp only [tailSplitF]
  split
  · cases heq : splitOnceSub tok t with
    | none => rfl
    | some p =>
        obtain ⟨x, y⟩ := p
        have hy := splitOnceSub_snd_lt tok htok t x y heq
        have hys : (stripWs y).length ≤ y.length := stripWs_length_le y
        dsimp only
        rw [tailSplitF_irrel htok (stripWs y).length (stripWs y) (le_refl _) t.length
          ((stripWs y).length + 1) (by omega) (by omega)]
        rfl
  · rfl

theorem tailSplitF_mem_length (tok : List Char) :
    ∀ (fuel : Nat) (t x : List Char), x ∈ tailSplitF tok fuel t → x.length ≤ t.length := by
  intro fuel
  induction fuel with
  | zero =>
      intro t x hx
      rcases List.mem_singleton.mp hx with rfl
      exact le_refl _
  | succ n ih =>
      intro t x hx
      dsimp only [tailSplitF] at hx
      split at hx
      · cases heq : splitOnceSub tok t with
        | none =>
            rw [heq] at hx
            rcases List.mem_singleton.mp hx with rfl
            exact le_refl _
        | some p =>
            obtain ⟨a, b⟩ := p
            rw [heq] at hx
            dsimp only at hx
            have hdec := splitOnceSub_decomp tok t a b heq
            rcases List.mem_cons.mp hx with rfl | h2
            · have ha : a.length ≤ t.length := by
                rw [hdec]; simp only [List.length_append]; omega
              exact le_trans (stripWs_length_le a) ha
            · have hb : b.length ≤ t.length := by
                rw [hdec]; simp only [List.length_append]; omega
              exact le_trans (ih (stripWs b) x h2)
                (le_trans (stripWs_length_le b) hb)
      · rcases List.mem_singleton.mp hx with rfl
        exact le_refl _

theorem tailSplit_mem_length {tok t x : List Char} (hx : x ∈ tailSplit tok t) :
    x.length ≤ t.length :=
  tailSplitF_mem_length tok (t.length + 1) t x hx

theorem parenAndScan_some :
    ∀ (s acc g1 g2 : List Char), parenAndScan acc s = some (g1, g2) →
      g1.length + 1 ≤ acc.length + s.length ∧ g2.length + 3 ≤ acc.length + s.length := by
  intro s
  induction s with
  | nil => intro acc g1 g2 h; exact absurd h (by simp [parenAndScan])
  | cons c rest ih =>
      intro acc g1 g2 h
      dsimp only [parenAndScan] at h
      cases hr : parenAndScan (c :: acc) rest with
      | some r =>
          rw [hr] at h
          dsimp only at h
          have hr2 : parenAndScan (c :: acc) rest = some (g1, g2) := by rw [hr, h]
          have := ih (c :: acc) g1 g2 hr2
          simp only [List.length_cons] at this ⊢
          omega
      | none =>
          rw [hr] at h
          dsimp only at h
          split at h
          · split at h
            · obtain ⟨hb, hc, hs⟩ := trySepHere_some (by decide) h
              constructor
              · rw [hb]
                simp only [List.length_reverse, List.length_cons]
                omega
              · simp only [List.length_cons]
                omega
            · exact absurd h (by simp)
          · exact absurd h (by simp)

/-! ### the recursive parser depends only on the values of the recursive
calls at strictly shorter strings -/

theorem detectOrPat_congr {p1 p2 : List Char → PyVal} (v : List Char)
    (hagree : ∀ t : List Char, t.length < v.length → p1 t = p2 t) :
    detectOrPat p1 v = detectOrPat p2 v := by
  dsimp only [detectOrPat]
  set st := (if v.head? = some '(' ∧ v.getLast? = some ')' then
      if isSubstrOf orTok ((v.drop 1).dropLast) = true then (v.drop 1).dropLast else v
    else v) with hstdef
  have hst : st.length ≤ v.length := by
    rw [hstdef]
    split
    · split
      · simp only [List.length_dropLast, List.length_drop]
        omega
      · exact le_refl _
    · exact le_refl _
  cases hm : matchSepSplit orWord st with
  | none => simp only [hm]
  | some p =>
      obtain ⟨g1, g2⟩ := p
      simp only [hm]
      obtain ⟨hg1, hg2⟩ := matchSepSplit_some (by decide) hm
      congr 2
      apply List.map_congr_left
      intro t ht
      obtain ⟨u, hu, rfl⟩ := List.mem_map.mp ht
      apply hagree
      rcases List.mem_cons.mp hu with rfl | hmem
      · calc (stripQuotes (stripWs g1)).length
            ≤ (stripWs g1).length := stripQuotes_length_le _
          _ ≤ g1.length := stripWs_length_le _
          _ < v.length := by omega
      · have h1 : u.length ≤ (stripWs g2).length := tailSplit_mem_length hmem
        calc (stripQuotes u).length ≤ u.length := stripQuotes_length_le _
          _ ≤ (stripWs g2).length := h1
          _ ≤ g2.length := stripWs_length_le _
          _ < v.length := by omega

theorem detectAndPat_congr {p1 p2 : List Char → PyVal} (v : List Char)
    (hagree : ∀ t : List Char, t.length < v.length → p1 t = p2 t) :
    detectAndPat p1 v = detectAndPat p2 v := by
  dsimp only [detectAndPat]
  set st := (if v.head? = some '(' ∧ v.getLast? = some ')' then
      if isSubstrOf andTok ((v.drop 1).dropLast) = true then (v.drop 1).dropLast else v
    else v) with hstdef
  have hst : st.length ≤ v.length := by
    rw [hstdef]
    split
    · split
      · simp only [List.length_dropLast, List.length_drop]
        omega
      · exact le_refl _
    · exact le_refl _
  cases hm : matchSepSplit andWord st with
  | none => simp only [hm]
  | some p =>
      obtain ⟨g1, g2⟩ := p
      simp only [hm]
      obtain ⟨hg1, hg2⟩ := matchSepSplit_some (by decide) hm
      congr 2
      apply List.map_congr_left
      intro t ht
      obtain ⟨u, hu, rfl⟩ := List.mem_map.mp ht
      apply hagree
      rcases List.mem_cons.mp hu with rfl | hmem
      · calc (stripQuotes (stripWs g1)).length
            ≤ (stripWs g1).length := stripQuotes_length_le _
          _ ≤ g1.length := stripWs_length_le _
          _ < v.length := by omega
      · have h1 : u.length ≤ (stripWs g2).length := tailSplit_mem_length hmem
        calc (stripQuotes u).length ≤ u.length := stripQuotes_length_le _
          _ ≤ (stripWs g2).length := h1
          _ ≤ g2.length := stripWs_length_le _
          _ < v.length := by omega

theorem detectNotPat_congr {p1 p2 : List Char → PyVal} (v : List Char)
    (hagree : ∀ t : List Char, t.length < v.length → p1 t = p2 t) :
    detectNotPat p1 v = detectNotPat p2 v := by
  cases v with
  | nil => rfl
  | cons c rest =>
      dsimp only [detectNotPat]
      by_cases hc : c = '-'
      · rw [if_pos hc, if_pos hc]
        by_cases he : rest.isEmpty = true
        · rw [if_pos he, if_pos he]
        · rw [if_neg he, if_neg he]
          have hlen : (if ¬(isSubstrOf orTok (stripWs rest) = true ∨
              isSubstrOf andTok (stripWs rest) = true ∨
              (stripWs rest).head? = some '{' ∨ (stripWs rest).head? = some '(') then
                stripQuotes (stripWs rest) else stripWs rest).length <
              (c :: rest).length := by
            split
            · exact lt_of_le_of_lt
                (le_trans (stripQuotes_length_le _) (stripWs_length_le _))
                (Nat.lt_succ_self _)
            · exact lt_of_le_of_lt (stripWs_length_le _) (Nat.lt_succ_self _)
          rw [hagree _ hlen]
      · rw [if_neg hc, if_neg hc]

theorem complexP1_congr {p1 p2 : List Char → PyVal} (rest : List Char)
    (hagree : ∀ t : List Char, t.length < rest.length → p1 t = p2 t) :
    complexP1 p1 rest = complexP1 p2 rest := by
  dsimp only [complexP1]
  by_cases hl : rest.getLast? = some ')'
  · rw [if_pos hl, if_pos hl]
    have hrest : rest ≠ [] := by
      intro h
      rw [h] at hl
      exact absurd hl (by simp)
    have hin : rest.dropLast.length < rest.length := by
      simp only [List.length_dropLast]
      have := List.length_pos.mpr hrest
      omega
    rw [detectOrPat_congr rest.dropLast (fun t ht => hagree t (lt_trans ht hin))]
  · rw [if_neg hl, if_neg hl]

theorem complexP3_congr {p1 p2 : List Char → PyVal} (rest : List Char)
    (hagree : ∀ t : List Char, t.length < rest.length → p1 t = p2 t) :
    complexP3 p1 rest = complexP3 p2 rest := by
  dsimp only [complexP3]
  cases hp : parenAndScan [] rest with
  | none => simp only [hp]
  | some p =>
      obtain ⟨g1, g2⟩ := p
      simp only [hp]
      have hb := parenAndScan_some rest [] g1 g2 hp
      simp only [List.length_nil, Nat.zero_add] at hb
      rw [detectOrPat_congr g1 (fun t ht => hagree t (by omega))]

theorem detectComplexPat_congr {p1 p2 : List Char → PyVal} (v : List Char)
    (hagree : ∀ t : List Char, t.length < v.length → p1 t = p2 t) :
    detectComplexPat p1 v = detectComplexPat p2 v := by
  cases v with
  | nil => rfl
  | cons c0 rest0 =>
      dsimp only [detectComplexPat]
      by_cases h0 : c0 = '-'
      · rw [if_pos h0, if_pos h0]
        cases rest0 with
        | nil => rfl
        | cons c1 rest1 =>
            dsimp only
            by_cases h1 : c1 = '('
            · rw [if_pos h1, if_pos h1]
              refine complexP1_congr rest1 (fun t ht => hagree t ?_)
              simp only [List.length_cons]
              omega
            · rw [if_neg h1, if_neg h1]
      · rw [if_neg h0, if_neg h0]
        by_cases h2 : c0 = '('
        · rw [if_pos h2, if_pos h2]
          refine complexP3_congr rest0 (fun t ht => hagree t ?_)
          simp only [List.length_cons]
          omega
        · rw [if_neg h2, if_neg h2]

theorem processF_irrel : ∀ (n : Nat) (v : List Char), v.length ≤ n →
    ∀ f1 f2, v.length < f1 → v.length < f2 → processF f1 v = processF f2 v := by
  intro n
  induction n using Nat.strong_induction_on with
  | _ n ih =>
      intro v hvn f1 f2 h1 h2
      obtain ⟨a, rfl⟩ : ∃ a, f1 = a + 1 := ⟨f1 - 1, by omega⟩
      obtain ⟨b, rfl⟩ : ∃ b, f2 = b + 1 := ⟨f2 - 1, by omega⟩
      dsimp only [processF]
      have hagree : ∀ t : List Char, t.length < v.length → processF a t = processF b t := by
        intro t ht
        exact ih t.length (by omega) t (le_refl _) a b (by omega) (by omega)
      rw [detectComplexPat_congr v hagree, detectNotPat_congr v hagree,
        detectOrPat_congr v hagree, detectAndPat_congr v hagree]

theorem processF_eq_top {v : List Char} {f : Nat} (h : v.length < f) :
    processF f v = processSearchString v :=
  processF_irrel v.length v (le_refl _) f (v.length + 1) h (Nat.lt_succ_self _)

/-- The true recursion equation of `_process_search_string`: the fuel in
`processSearchString` never runs out, and the four detectors are tried in
source order with the parser itself as the recursive call. -/
theorem processSearchString_unfold (v : List Char) :
    processSearchString v =
      match detectComplexPat processSearchString v with
      | some r => r
      | none =>
          match detectNotPat processSearchString v with
          | some r => r
          | none =>
              match detectOrPat processSearchString v with
              | some r => r
              | none =>
                  match detectAndPat processSearchString v with
                  | some r => r
                  | none => .pstr (stripQuotes v) := by
  conv_lhs => rw [processSearchString]
  dsimp only [processF]
  have hagree : ∀ t : List Char, t.length < v.length →
      processF v.length t = processSearchString t := fun t ht => processF_eq_top ht
  rw [detectComplexPat_congr v hagree, detectNotPat_congr v hagree,
    detectOrPat_congr v hagree, detectAndPat_congr v hagree]

/-! ### facts about well-formed OR / pipe strings -/

theorem orTermChar_spec {c : Char} (h : orTermChar c = true) :
    isWSp c = false ∧ c ≠ '|' ∧ c ≠ '{' ∧ c ≠ '(' ∧ c ≠ '-' := by
  simp only [orTermChar, plainChar, Bool.or_eq_true, Bool.and_eq_true,
    Bool.not_eq_true', decide_eq_true_eq] at h
  rcases h with (h | h) | h
  · obtain ⟨⟨⟨⟨hw, h1⟩, h2⟩, h3⟩, h4⟩ := h
    exact ⟨hw, by simpa using h1, by simpa using h2, by simpa using h3, by simpa using h4⟩
  · subst h
    refine ⟨by decide, by decide, by decide, by decide, by decide⟩
  · subst h
    refine ⟨by decide, by decide, by decide, by decide, by decide⟩

theorem trySepHere_none_of_no_ws {sep g1 s : List Char}
    (h : ∀ c ∈ s, isWSp c = false) : trySepHere sep g1 s = none := by
  cases s with
  | nil => rfl
  | cons c rest =>
      dsimp only [trySepHere]
      have hc : isWSp c = false := h c (by simp)
      rw [List.takeWhile_cons_of_neg (by simp [hc])]
      rfl

theorem sepScan_none_of_no_ws {sep : List Char} :
    ∀ {s acc : List Char}, (∀ c ∈ s, isWSp c = false) → sepScan sep acc s = none := by
  intro s
  induction s with
  | nil => intro acc h; rfl
  | cons c rest ih =>
      intro acc h
      dsimp only [sepScan]
      split
      · rfl
      · rw [trySepHere_none_of_no_ws (fun c hc => h c (by simp [hc]))]
        exact ih (fun c hc => h c (by simp [hc]))

theorem splitOnceSub_none_of_head_notin (sep : List Char) (c0 : Char)
    (hc0 : sep.head? = some c0) :
    ∀ t, (∀ ch ∈ t, ch ≠ c0) → splitOnceSub sep t = none := by
  obtain ⟨sep', rfl⟩ : ∃ sep', sep = c0 :: sep' := by
    cases sep with
    | nil => exact absurd hc0 (by simp)
    | cons a sep' => exact ⟨sep', by simpa using (Option.some.inj hc0) ▸ rfl⟩
  intro t
  induction t with
  | nil => intro h; rfl
  | cons ct t' ih =>
      intro h
      dsimp only [splitOnceSub]
      rw [if_neg, ih (fun ch hch => h ch (by simp [hch]))]
      · rfl
      · intro hp
        rw [List.isPrefixOf_iff_prefix] at hp
        obtain ⟨u, hu⟩ := hp
        have : ct = c0 := by
          have := congrArg List.head? hu
          simpa using this.symm
        exact h ct (by simp) this

theorem splitOnceSub_boundary (sep : List Char) (c0 : Char) (hc0 : sep.head? = some c0) :
    ∀ (x y : List Char), (∀ ch ∈ x, ch ≠ c0) →
      splitOnceSub sep (x ++ sep ++ y) = some (x, y) := by
  obtain ⟨sep', rfl⟩ : ∃ sep', sep = c0 :: sep' := by
    cases sep with
    | nil => exact absurd hc0 (by simp)
    | cons a sep' => exact ⟨sep', by simpa using (Option.some.inj hc0) ▸ rfl⟩
  intro x
  induction x with
  | nil =>
      intro y _
      simp only [List.nil_append]
      dsimp only [splitOnceSub]
      rw [if_pos (by rw [List.isPrefixOf_iff_prefix]; exact ⟨y, by simp⟩)]
      have hdrop : ((c0 :: sep') ++ y).drop (c0 :: sep').length = y := List.drop_left _ _
      exact congrArg some (congrArg ([], ·) hdrop)
  | cons cx x' ih =>
      intro y hx
      simp only [List.cons_append]
      dsimp only [splitOnceSub]
      rw [if_neg]
      · have := ih y (fun ch hch => hx ch (by simp [hch]))
        simp only [List.cons_append] at this
        rw [this]
        rfl
      · intro hp
        rw [List.isPrefixOf_iff_prefix] at hp
        obtain ⟨u, hu⟩ := hp
        have : cx = c0 := by
          have := congrArg List.head? hu
          simpa using this.symm
        exact hx cx (by simp) this

theorem isSubstrOf_sandwich (sep : List Char) (hsep : sep ≠ []) :
    ∀ (x y : List Char), isSubstrOf sep (x ++ sep ++ y) = true := by
  intro x
  induction x with
  | nil =>
      intro y
      obtain ⟨c, sep', rfl⟩ : ∃ c sep', sep = c :: sep' := by
        cases sep with
        | nil => exact absurd rfl hsep
        | cons c sep' => exact ⟨c, sep', rfl⟩
      simp only [List.nil_append, List.cons_append]
      dsimp only [isSubstrOf]
      have : (c :: sep').isPrefixOf (c :: (sep' ++ y)) = true := by
        rw [List.isPrefixOf_iff_prefix]
        exact ⟨y, by simp⟩
      simp [this]
  | cons cx x' ih =>
      intro y
      simp only [List.cons_append]
      dsimp only [isSubstrOf]
      rw [ih y]
      simp

theorem isSubstrOf_none_of_char (pat : List Char) (c0 : Char) (hc0 : c0 ∈ pat) :
    ∀ t, (∀ ch ∈ t, ch ≠ c0) → isSubstrOf pat t = false := by
  intro t
  induction t with
  | nil =>
      intro _
      dsimp only [isSubstrOf]
      have hne : pat ≠ [] := fun hp => by rw [hp] at hc0; exact absurd hc0 (by simp)
      simp [List.isEmpty_iff, hne]
  | cons ct t' ih =>
      intro h
      dsimp only [isSubstrOf]
      rw [ih (fun ch hch => h ch (by simp [hch]))]
      simp only [Bool.or_false]
      cases hp : pat.isPrefixOf (ct :: t') with
      | false => rfl
      | true =>
          exfalso
          rw [List.isPrefixOf_iff_prefix] at hp
          exact h c0 (hp.sublist.subset hc0) rfl

theorem dropWhile_eq_self_of_none {l : List Char} (h : ∀ c ∈ l, isWSp c = false) :
    l.dropWhile isWSp = l := by
  cases l with
  | nil => rfl
  | cons c r => exact List.dropWhile_cons_of_neg (by simp [h c (by simp)])

theorem stripWs_eq_self {s : List Char} (h : ∀ c ∈ s, isWSp c = false) :
    stripWs s = s := by
  unfold stripWs
  rw [dropWhile_eq_self_of_none h,
    dropWhile_eq_self_of_none (fun c hc => h c (List.mem_reverse.mp hc)),
    List.reverse_reverse]

theorem stripQuotes_sublist (t : List Char) : (stripQuotes t).Sublist t := by
  unfold stripQuotes
  split
  · exact ((t.drop 1).dropLast_sublist).trans (t.drop_sublist 1)
  · exact List.Sublist.refl t

theorem joinSep_cons2 (sep t1 t2 : List Char) (rest : List (List Char)) :
    joinSep sep (t1 :: t2 :: rest) = t1 ++ sep ++ joinSep sep (t2 :: rest) := rfl

theorem joinSep_chars {P : Char → Prop} {sep : List Char} :
    ∀ {ts : List (List Char)}, (∀ t ∈ ts, ∀ c ∈ t, P c) → (∀ c ∈ sep, P c) →
      ∀ c ∈ joinSep sep ts, P c := by
  intro ts
  induction ts with
  | nil => intro _ _ c hc; exact absurd hc (by simp [joinSep])
  | cons t rest ih =>
      intro hts hsep c hc
      cases rest with
      | nil => exact hts t (by simp) c hc
      | cons t2 rest' =>
          rw [joinSep_cons2] at hc
          rcases List.mem_append.mp hc with hc1 | hc2
          · rcases List.mem_append.mp hc1 with hc3 | hc4
            · exact hts t (by simp) c hc3
            · exact hsep c hc4
          · exact ih (fun u hu => hts u (by simp [hu])) hsep c hc2

theorem joinSep_ne_nil {sep : List Char} {t : List Char} {rest : List (List Char)}
    (ht : t ≠ []) : joinSep sep (t :: rest) ≠ [] := by
  cases rest with
  | nil => exact ht
  | cons t2 rest' =>
      rw [joinSep_cons2]
      intro h
      rcases List.append_eq_nil.mp h with ⟨h1, -⟩
      rcases List.append_eq_nil.mp h1 with ⟨h3, -⟩
      exact ht h3

theorem getLast?_mem {t : List Char} (ht : t ≠ []) :
    ∃ d ∈ t, t.getLast? = some d := by
  refine ⟨t.getLast ht, List.getLast_mem ht, List.getLast?_eq_getLast t ht⟩

theorem joinSep_getLast? (sep : List Char) :
    ∀ (ts : List (List Char)), ts ≠ [] → (∀ t ∈ ts, t ≠ []) →
      ∃ tl ∈ ts, (joinSep sep ts).getLast? = tl.getLast? := by
  intro ts
  induction ts with
  | nil => intro h; exact absurd rfl h
  | cons t rest ih =>
      intro _ hne
      cases rest with
      | nil => exact ⟨t, by simp, rfl⟩
      | cons t2 rest' =>
          obtain ⟨tl, htl, heq⟩ := ih (by simp) (fun u hu => hne u (by simp [hu]))
          refine ⟨tl, by simp [htl], ?_⟩
          obtain ⟨d, hd, hdeq⟩ := getLast?_mem (hne tl (by simp [htl]))
          rw [joinSep_cons2, List.append_assoc, List.getLast?_append,
            List.getLast?_append, heq, hdeq]
          simp

theorem splitAll_joinSep :
    ∀ (ts : List (List Char)), ts ≠ [] → (∀ t ∈ ts, ∀ c ∈ t, c ≠ '|') →
      splitAllSub ['|'] (joinSep ['|'] ts) = ts := by
  intro ts
  induction ts with
  | nil => intro h; exact absurd rfl h
  | cons t rest ih =>
      intro _ hchars
      cases rest with
      | nil =>
          show splitAllSub ['|'] t = [t]
          rw [splitAllSub_unfold (by decide)]
          rw [splitOnceSub_none_of_head_notin ['|'] '|' rfl t (hchars t (by simp))]
      | cons t2 rest' =>
          rw [joinSep_cons2]
          rw [splitAllSub_unfold (by decide)]
          have hb := splitOnceSub_boundary ['|'] '|' rfl t (joinSep ['|'] (t2 :: rest'))
            (hchars t (by simp))
          rw [hb]
          dsimp only
          rw [ih (by simp) (fun u hu => hchars u (by simp [hu]))]

theorem contains_pipe_of_mem {s : List Char} (h : '|' ∈ s) : s.contains '|' = true := by
  simpa [List.contains] using h

theorem detectComplexPat_none_head (p : List Char → PyVal) (c : Char) (s : List Char)
    (h1 : c ≠ '-') (h2 : c ≠ '(') : detectComplexPat p (c :: s) = none := by
  dsimp only [detectComplexPat]
  rw [if_neg h1, if_neg h2]

theorem detectNotPat_none_head (p : List Char → PyVal) (c : Char) (s : List Char)
    (h1 : c ≠ '-') : detectNotPat p (c :: s) = none := by
  dsimp only [detectNotPat]
  rw [if_neg h1]

/-- C5 (amended), pipe branch: the terms of a `t1|t2|...` string are
returned verbatim in an `any` — neither quote-stripped nor recursively
parsed. -/
theorem C5_pipe_terms_kept_verbatim (ts : List (List Char)) (h2 : 2 ≤ ts.length)
    (hterm : ∀ t ∈ ts, pipeTerm t = true) :
    processSearchString (joinSep ['|'] ts) = pyAny (ts.map .pstr) := by
  obtain ⟨t1, t2, rest, rfl⟩ : ∃ t1 t2 rest, ts = t1 :: t2 :: rest := by
    match ts, h2 with
    | t1 :: t2 :: rest, _ => exact ⟨t1, t2, rest, rfl⟩
  have hterm' : ∀ t ∈ t1 :: t2 :: rest, ∀ c ∈ t, orTermChar c = true := by
    intro t ht c hc
    have := hterm t ht
    simp only [pipeTerm, Bool.and_eq_true] at this
    exact List.all_eq_true.mp this.2 c hc
  have htne : ∀ t ∈ t1 :: t2 :: rest, t ≠ [] := by
    intro t ht
    have := hterm t ht
    simp only [pipeTerm, Bool.and_eq_true] at this
    simpa [List.isEmpty_iff] using this.1
  obtain ⟨c, t1', rfl⟩ : ∃ c t1', t1 = c :: t1' := by
    cases h : t1 with
    | nil => exact absurd h (htne t1 (by simp))
    | cons c t1' => exact ⟨c, t1', rfl⟩
  obtain ⟨hcw, hcp, hcb, hcparen, hcd⟩ :=
    orTermChar_spec (hterm' (c :: t1') (by simp) c (by simp))
  have hs : joinSep ['|'] ((c :: t1') :: t2 :: rest) =
      c :: (t1' ++ ['|'] ++ joinSep ['|'] (t2 :: rest)) := by
    rw [joinSep_cons2]
    simp
  have hnows : ∀ ch ∈ joinSep ['|'] ((c :: t1') :: t2 :: rest), isWSp ch = false := by
    refine joinSep_chars (fun t ht ch hch => (orTermChar_spec (hterm' t ht ch hch)).1) ?_
    intro ch hch
    simp only [List.mem_singleton] at hch
    subst hch
    decide
  rw [processSearchString_unfold]
  rw [hs, detectComplexPat_none_head _ _ _ hcd hcparen,
    detectNotPat_none_head _ _ _ hcd]
  have hor : detectOrPat processSearchString
      (c :: (t1' ++ ['|'] ++ joinSep ['|'] (t2 :: rest))) =
      some (pyAny (((c :: t1') :: t2 :: rest).map .pstr)) := by
    dsimp only [detectOrPat]
    rw [if_neg (by intro hx; exact hcparen (by simpa using hx.1))]
    rw [matchSepSplit, sepScan_none_of_no_ws (by rw [← hs]; exact hnows)]
    dsimp only
    rw [if_neg (fun hx => hcb (by simpa using hx.1))]
    dsimp only
    have hcont : (c :: (t1' ++ ['|'] ++ joinSep ['|'] (t2 :: rest))).contains '|' = true := by
      apply contains_pipe_of_mem
      simp
    have hlast : (c :: (t1' ++ ['|'] ++ joinSep ['|'] (t2 :: rest))).getLast? ≠ some '|' := by
      rw [← hs]
      obtain ⟨tl, htl, heq⟩ := joinSep_getLast? ['|']
        ((c :: t1') :: t2 :: rest) (by simp) htne
      rw [heq]
      obtain ⟨d, hd, hdeq⟩ := getLast?_mem (htne tl htl)
      rw [hdeq]
      intro hx
      have hd' := (orTermChar_spec (hterm' tl htl d hd)).2.1
      exact hd' (by simpa using hx)
    rw [if_pos ⟨hcont, by simp [hcp], hlast⟩]
    rw [show c :: (t1' ++ ['|'] ++ joinSep ['|'] (t2 :: rest)) =
      joinSep ['|'] ((c :: t1') :: t2 :: rest) from hs.symm]
    rw [splitAll_joinSep ((c :: t1') :: t2 :: rest) (by simp)
      (fun t ht ch hch => (orTermChar_spec (hterm' t ht ch hch)).2.1)]
    have hmap : ((c :: t1') :: t2 :: rest).map stripWs = (c :: t1') :: t2 :: rest := by
      rw [List.map_congr_left (fun t ht => stripWs_eq_self
        (fun ch hch => (orTermChar_spec (hterm' t ht ch hch)).1))]
      exact List.map_id _
    rw [hmap]
    rw [List.filter_eq_self.mpr (fun t ht => by simpa [List.isEmpty_iff] using htne t ht)]
    rw [if_pos (by simpa using h2)]
  rw [hor]

/-- C5 counterexample.  The claim says every leaf term of a parse result is
quote-stripped, and that the terms of the `{t1 t2 t3}` and `t1|t2|t3` OR
shorthands are quote-stripped and recursively parsed.  On the code, pipe
terms keep their surrounding quotes verbatim, and curly-brace terms are not
recursively parsed (`-a` stays a literal leaf although `-a` alone parses to
a negation). -/
theorem C5_shorthand_terms_counterexample :
    processSearchString "\"a\"|\"b\"".data =
      pyAny [.pstr "\"a\"".data, .pstr "\"b\"".data] ∧
    stripQuotes "\"a\"".data = "a".data ∧
    "\"a\"".data ≠ "a".data ∧
    processSearchString "{-a b}".data = pyAny [.pstr "-a".data, .pstr "b".data] ∧
    processSearchString "-a".data = pyNot (.pstr "a".data) :=
  ⟨rfl, rfl, by decide, rfl, rfl⟩

/-- C5 witness: the verbatim-pipe theorem applied at `"a"|"b"`, whose terms
keep their quotes. -/
theorem C5_pipe_terms_kept_verbatim_witness :
    processSearchString (joinSep ['|'] ["\"a\"".data, "\"b\"".data]) =
      pyAny [.pstr "\"a\"".data, .pstr "\"b\"".data] :=
  C5_pipe_terms_kept_verbatim ["\"a\"".data, "\"b\"".data] (by decide) (by decide)

/-- C6.  `_process_search_string` is a total function (the embedding
carries a fuel argument, and `processSearchString_unfold` proves the fuel
never runs out, so the function satisfies the source's recursion equation
on *every* string); it is deterministic (a pure function); and whenever
none of the four pattern detectors matches, it returns the quote-stripped
input as a plain string. -/
theorem C6_parser_total_with_fallback (s : List Char)
    (h1 : detectComplexPat processSearchString s = none)
    (h2 : detectNotPat processSearchString s = none)
    (h3 : detectOrPat processSearchString s = none)
    (h4 : detectAndPat processSearchString s = none) :
    processSearchString s = .pstr (stripQuotes s) := by
  rw [processSearchString_unfold, h1, h2, h3, h4]

/-- C6 witness: no detector matches `hello world`, so the parser returns
the (quote-stripped) input itself. -/
theorem C6_parser_total_with_fallback_witness :
    processSearchString "hello world".data = .pstr (stripQuotes "hello world".data) :=
  C6_parser_total_with_fallback "hello world".data rfl rfl rfl rfl

/-- C4 counterexample.  The claim says `-(I)` always parses to `Not`
applied to the (recursively parsed) interior, including AND interiors.  On
the code, `_detect_complex_pattern` only parses the interior when it
contains an ` OR ` token: `-(a AND b)` keeps the raw interior string, so it
is *not* `Not` of the parse of `a AND b`. -/
theorem C4_negated_and_group_counterexample :
    processSearchString "-(a AND b)".data = pyNot (.pstr "a AND b".data) ∧
    processSearchString "a AND b".data = pyAll [.pstr "a".data, .pstr "b".data] ∧
    processSearchString "-(a AND b)".data ≠
      pyNot (processSearchString "a AND b".data) :=
  ⟨rfl, rfl, ne_of_pyBeq_false rfl⟩

/-- C4 (amended).  For every nonempty newline-free interior `I`, parsing
`-(I)` wraps `Not` around: the OR-pattern parse of `I` when `I` contains an
` OR ` token and OR detection succeeds, and otherwise the *raw interior
string* `I` itself — unparsed and not quote-stripped.  (The claimed
recursive parse of arbitrary interiors only happens in the OR case.) -/
theorem C4_negated_group_or_only (I : List Char) (hne : I ≠ [])
    (hnl : ¬I.contains '\n' = true) :
    processSearchString ('-' :: '(' :: (I ++ [')'])) =
      pyNot (if isSubstrOf orTok I = true then
          (detectOrPat processSearchString I).getD (.pstr I)
        else .pstr I) := by
  rw [processSearchString_unfold]
  have hc : detectComplexPat processSearchString ('-' :: '(' :: (I ++ [')'])) =
      some (pyNot (if isSubstrOf orTok I = true then
          (detectOrPat processSearchString I).getD (.pstr I)
        else .pstr I)) := by
    dsimp only [detectComplexPat]
    rw [if_pos rfl, if_pos rfl]
    dsimp only [complexP1]
    rw [List.getLast?_concat, if_pos rfl, List.dropLast_concat]
    rw [if_pos ⟨by simpa [List.isEmpty_iff] using hne, hnl⟩]
    by_cases ho : isSubstrOf orTok I = true
    · rw [if_pos ho, if_pos ho]
      cases hd : detectOrPat processSearchString I with
      | some r => rfl
      | none => rfl
    · rw [if_neg ho, if_neg ho]
  rw [hc]

/-- C4 witness: the amended theorem at interior `a OR b`, where the OR
parse does happen under the negation. -/
theorem C4_negated_group_or_only_witness :
    processSearchString ('-' :: '(' :: ("a OR b".data ++ [')'])) =
      pyNot (if isSubstrOf orTok "a OR b".data = true then
          (detectOrPat processSearchString "a OR b".data).getD (.pstr "a OR b".data)
        else .pstr "a OR b".data) :=
  C4_negated_group_or_only "a OR b".data (by decide) (by decide)

/-- C1.  The claim says a pairing where the parent has a truthy `archive`
while the child leaves `archive` unspecified (no security content, no other
conflicts) is reported as a warning of severity *below* critical.  The code
disagrees: `_get_action_conflicts` emits the `('archive',
'no-archive-specified')` pair (commented in the source as "a warning-level
conflict, not critical"), but `analyze_merge_safety` escalates *every*
conflict pair whose name mentions "archive" to severity `critical` with a
-40 confidence penalty, so this pairing comes back critical and unsafe. -/
theorem C1_parent_archive_child_unspecified_is_critical :
    (let parent : Rule :=
      [("from".data, .pstr "news@example.com".data), ("archive".data, .pbool true)]
     let child : Rule :=
      [("from".data, .pstr "news@example.com".data), ("has".data, .pstr "digest".data)]
     isSecuritySensitive child = false ∧
     getActionConflicts parent child =
       [("archive".data, "no-archive-specified".data)] ∧
     checkForwardingConflict parent child = none ∧
     checkLabelCompatibility parent child = none ∧
     (analyzeMergeSafety parent child).severity = .critical ∧
     (analyzeMergeSafety parent child).safe = false ∧
     (analyzeMergeSafety parent child).confidence = 60) :=
  ⟨rfl, rfl, rfl, rfl, rfl, rfl, rfl⟩

/-- C2 counterexample.  The claim says the pair parent `{from: x, label:
"Team"}`, child `{from: x, has: "meeting", label: "Team/Meetings"}` (child
label a string-prefix extension of the parent's) yields one hierarchy with
one child under the conservative strategy.  On the code it yields *no*
hierarchy: `_check_label_compatibility` only recognises overlap by list
membership, so the string labels produce a "different purposes" warning,
and the conservative gate of `_is_child_of` rejects any pairing with
warnings. -/
theorem C2_conservative_prefix_label_counterexample :
    detectHierarchies .conservative (fun _ _ => .reject)
      [[("from".data, .pstr "team@example.com".data), ("label".data, .pstr "Team".data)],
       [("from".data, .pstr "team@example.com".data), ("has".data, .pstr "meeting".data),
        ("label".data, .pstr "Team/Meetings".data)]] = [] :=
  rfl

/-- C2 (amended).  On the given pair with string labels `"Team"` and
`"Team/Meetings"` the conservative strategy produces no hierarchy (the
label-compatibility check warns for unequal string labels, and conservative
rejects any warning); the hierarchy with the one child is produced when the
child's label is instead a *list containing* the parent's label, e.g.
`["Team", "Team/Meetings"]`. -/
theorem C2_conservative_label_gate_amended :
    detectHierarchies .conservative (fun _ _ => .reject)
      [[("from".data, .pstr "team@example.com".data), ("label".data, .pstr "Team".data)],
       [("from".data, .pstr "team@example.com".data), ("has".data, .pstr "meeting".data),
        ("label".data, .pstr "Team/Meetings".data)]] = [] ∧
    detectHierarchies .conservative (fun _ _ => .reject)
      [[("from".data, .pstr "team@example.com".data), ("label".data, .pstr "Team".data)],
       [("from".data, .pstr "team@example.com".data), ("has".data, .pstr "meeting".data),
        ("label".data, .plist [.pstr "Team".data, .pstr "Team/Meetings".data])]] =
      [⟨0, [1]⟩] :=
  ⟨rfl, rfl⟩

/-- C9.  The claim (and the spec) say end-of-input at an interactive prompt
is always caught and treated as "no", including at the extra prompt shown
after a `help` response.  The code catches `EOFError`/`KeyboardInterrupt`
only around the first `input()`: end of input at the main prompt indeed
returns a "no" decision, but after an `h` response the "Press Enter to
repeat the question" `input()` is unguarded, so end of input there raises.
(The model returns `Except.error` exactly where the Python propagates the
exception; a consumed `h`+Enter pair redisplays the prompt without
consuming the pairing, as the last conjunct shows.) -/
theorem C9_interactive_eof_behaviour :
    interactiveMergeDecision [] [] [] false false [] =
      .ok (.reject, [], []) ∧
    interactiveMergeDecision [] [] [] false false ["h".data] = .error () ∧
    interactiveMergeDecision [] [] [] false false ["h".data, [], "y".data] =
      interactiveMergeDecision [] [] [] false false ["y".data] :=
  ⟨rfl, rfl, rfl⟩

/-- C3 counterexample.  The claim says list-valued fields are compared as
sets, so two rules whose only difference is the element order of a
list-valued non-label field would merge into one rule.  On the code,
`make_hashable` turns lists into tuples in order, so the two filters below
(identical up to the order of `to`) get different signatures and are *not*
merged. -/
theorem C3_list_order_counterexample :
    mergeIdenticalFilters
      [[("to".data, .plist [.pstr "a".data, .pstr "b".data]), ("label".data, .pstr "X".data)],
       [("to".data, .plist [.pstr "b".data, .pstr "a".data]), ("label".data, .pstr "Y".data)]] =
      [[("to".data, .plist [.pstr "a".data, .pstr "b".data]), ("label".data, .pstr "X".data)],
       [("to".data, .plist [.pstr "b".data, .pstr "a".data]), ("label".data, .pstr "Y".data)]] :=
  rfl

/-- C3 (amended).  Duplicate merging treats two rules as duplicates iff
every field except the action label is deeply equal with dictionary key
order ignored but list element order and multiplicity significant
(`make_hashable` sorts dict items by key and turns lists into tuples in
order); in particular two rules differing only in the element order of a
list-valued field are *not* merged. -/
theorem C3_duplicates_iff_ordered_signature (r1 r2 : Rule) :
    (mergeIdenticalFilters [r1, r2]).length = 1 ↔ filterSig r1 = filterSig r2 := by
  constructor
  · intro h
    by_contra hne
    have hb : hBeq (filterSig r1) (filterSig r2) = false := by
      cases hb : hBeq (filterSig r1) (filterSig r2)
      · rfl
      · exact absurd ((hBeq_iff _ _).mp hb) hne
    have : mergeIdenticalFilters [r1, r2] = [r1, r2] := by
      unfold mergeIdenticalFilters
      simp [List.foldl, List.find?, hb]
    rw [this] at h
    simp at h
  · intro h
    have hb : hBeq (filterSig r1) (filterSig r2) = true := (hBeq_iff _ _).mpr h
    unfold mergeIdenticalFilters
    simp only [List.foldl, List.find?, hb]
    split <;> simp

/-- C3 witness: the iff applied at two concrete rules that differ only in
their label, which are merged into one. -/
theorem C3_duplicates_iff_ordered_signature_witness :
    (mergeIdenticalFilters
      [[("from".data, .pstr "a@e.com".data), ("label".data, .pstr "X".data)],
       [("from".data, .pstr "a@e.com".data), ("label".data, .pstr "Y".data)]]).length = 1 :=
  (C3_duplicates_iff_ordered_signature _ _).mpr rfl

/-- C8.  Building the hierarchy `{parent: {from: x, label: P}, children:
[{from: x, has: y, label: C}]}` yields the parent with `more == [{has: y,
label: C}]`: the condition field whose value equals the parent's (`from`)
is removed from the child, and the child's own extra condition (`has`) and
action (`label`) are kept. -/
theorem C8_build_more_strips_inherited (x y P C : PyVal) :
    buildMoreStructures [⟨0, [1]⟩]
      [[("from".data, x), ("label".data, P)],
       [("from".data, x), ("has".data, y), ("label".data, C)]] =
    [[("from".data, x), ("label".data, P),
      ("more".data, .plist [.pdict [("has".data, y), ("label".data, C)]])]] := by
  simp +decide [buildMoreStructures, buildChild, getFilterConditions, dictGet, dictMem,
    dictSet, dictDel, pyBeq_refl, List.enum, List.filter, List.foldl_cons, List.foldl_nil]

/-! ### OR-flattening: boundary lemmas for the lazy separator match -/

theorem contains_eq_false_of_all_ne {c : Char} {s : List Char}
    (h : ∀ ch ∈ s, ch ≠ c) : s.contains c = false := by
  cases hm : s.contains c with
  | false => rfl
  | true => exact absurd rfl (h c (by simpa [List.contains] using hm))

theorem trySepHere_none_of_head {sep g1 : List Char} {c : Char} {s : List Char}
    (hc : isWSp c = false) : trySepHere sep g1 (c :: s) = none := by
  dsimp only [trySepHere]
  rw [List.takeWhile_cons_of_neg (by simp [hc])]
  rfl

theorem trySepHere_orTok_boundary {s2 : List Char} {d : Char} (g1 : List Char)
    (hhd : s2.head? = some d) (hdw : isWSp d = false)
    (hnl : s2.contains '\n' = false) :
    trySepHere orWord g1 (orTok ++ s2) = some (g1, s2) := by
  obtain ⟨s2', rfl⟩ : ∃ s2', s2 = d :: s2' := by
    cases s2 with
    | nil => exact absurd hhd (by simp)
    | cons e u => exact ⟨u, by rw [show e = d from Option.some.inj hhd]⟩
  rw [show orTok ++ d :: s2' = ' ' :: 'O' :: 'R' :: ' ' :: d :: s2' from rfl]
  dsimp only [trySepHere]
  have hw1 : List.takeWhile isWSp (' ' :: 'O' :: 'R' :: ' ' :: d :: s2') = [' '] := by
    rw [List.takeWhile_cons_of_pos (by decide), List.takeWhile_cons_of_neg (by decide)]
  simp only [hw1, List.length_cons, List.length_nil, List.drop_succ_cons, List.drop_zero,
    show orWord.length = 2 from rfl]
  rw [if_neg (by decide)]
  rw [if_pos (by rw [List.isPrefixOf_iff_prefix]; exact ⟨' ' :: d :: s2', rfl⟩)]
  have hw2 : List.takeWhile isWSp (' ' :: d :: s2') = [' '] := by
    rw [List.takeWhile_cons_of_pos (by decide), List.takeWhile_cons_of_neg (by simp [hdw])]
  simp only [hw2, List.length_cons, List.length_nil, List.drop_succ_cons, List.drop_zero]
  rw [if_neg (by decide)]
  rw [if_neg (by simp)]
  rw [if_neg (by rw [hnl]; simp)]

theorem sepScan_boundary (s2 : List Char) (d : Char)
    (hhd : s2.head? = some d) (hdw : isWSp d = false)
    (hnl : s2.contains '\n' = false) :
    ∀ (x acc : List Char), x ≠ [] → (∀ c ∈ x, isWSp c = false) →
      sepScan orWord acc (x ++ orTok ++ s2) = some (acc.reverse ++ x, s2) := by
  intro x
  induction x with
  | nil => intro acc h; exact absurd rfl h
  | cons c x' ih =>
      intro acc _ hx
      have hcw : isWSp c = false := hx c (by simp)
      have hcnl : c ≠ '\n' := by
        intro he; rw [he] at hcw; exact absurd hcw (by decide)
      simp only [List.cons_append]
      dsimp only [sepScan]
      rw [if_neg hcnl]
      cases x' with
      | nil =>
          simp only [List.nil_append]
          rw [trySepHere_orTok_boundary ((c :: acc).reverse) hhd hdw hnl]
          simp
      | cons c2 x'' =>
          have hc2 : isWSp c2 = false := hx c2 (by simp)
          simp only [List.cons_append]
          rw [trySepHere_none_of_head hc2]
          have hrec := ih (c :: acc) (by simp) (fun ch hch => hx ch (by simp [hch]))
          simp only [List.cons_append] at hrec
          exact hrec.trans (by simp [List.append_assoc])

theorem stripWs_eq_self_of_ends {s : List Char} (c d : Char)
    (hc : s.head? = some c) (hcw : isWSp c = false)
    (hd : s.getLast? = some d) (hdw : isWSp d = false) : stripWs s = s := by
  obtain ⟨s', rfl⟩ : ∃ s', s = c :: s' := by
    cases s with
    | nil => exact absurd hc (by simp)
    | cons e u => exact ⟨u, by rw [show e = c from Option.some.inj hc]⟩
  unfold stripWs
  rw [List.dropWhile_cons_of_neg (by simp [hcw])]
  obtain ⟨u, hu⟩ : ∃ u, (c :: s').reverse = d :: u := by
    have hrev : (c :: s').reverse.head? = some d := by
      rw [List.head?_reverse]; exact hd
    cases hr : (c :: s').reverse with
    | nil => rw [hr] at hrev; exact absurd hrev (by simp)
    | cons e u =>
        rw [hr] at hrev
        exact ⟨u, by rw [show e = d from Option.some.inj hrev]⟩
  rw [hu, List.dropWhile_cons_of_neg (by simp [hdw]), ← hu, List.reverse_reverse]

theorem joinSep_head? {sep t : List Char} (rest : List (List Char)) (ht : t ≠ []) :
    (joinSep sep (t :: rest)).head? = t.head? := by
  obtain ⟨c, t', rfl⟩ : ∃ c t', t = c :: t' := by
    cases t with
    | nil => exact absurd rfl ht
    | cons c t' => exact ⟨c, t', rfl⟩
  cases rest with
  | nil => rfl
  | cons t2 rest' => rw [joinSep_cons2]; simp

theorem tailSplit_joinSep :
    ∀ (ts : List (List Char)), ts ≠ [] → (∀ t ∈ ts, t ≠ []) →
      (∀ t ∈ ts, ∀ c ∈ t, isWSp c = false) →
      tailSplit orTok (joinSep orTok ts) = ts := by
  intro ts
  induction ts with
  | nil => intro h; exact absurd rfl h
  | cons t rest ih =>
      intro _ hne hws
      have htsp : ∀ ch ∈ t, ch ≠ ' ' := by
        intro ch hch he
        have hw := hws t (by simp) ch hch
        rw [he] at hw
        exact absurd hw (by decide)
      cases rest with
      | nil =>
          show tailSplit orTok t = [t]
          rw [tailSplit_unfold (by decide),
            if_neg (by rw [isSubstrOf_none_of_char orTok ' ' (by decide) t htsp]; simp)]
      | cons t2 rest' =>
          rw [joinSep_cons2, tailSplit_unfold (by decide)]
          rw [if_pos (isSubstrOf_sandwich orTok (by decide) t (joinSep orTok (t2 :: rest')))]
          rw [splitOnceSub_boundary orTok ' ' (by decide) t
            (joinSep orTok (t2 :: rest')) htsp]
          dsimp only
          rw [stripWs_eq_self (hws t (by simp))]
          have htne2 : ∀ u ∈ t2 :: rest', u ≠ [] := fun u hu => hne u (by simp [hu])
          have hhd2 : (joinSep orTok (t2 :: rest')).head? = t2.head? :=
            joinSep_head? rest' (htne2 t2 (by simp))
          obtain ⟨d2, hd2mem, hd2⟩ : ∃ d2 ∈ t2, t2.head? = some d2 := by
            cases h2 : t2 with
            | nil => exact absurd h2 (htne2 t2 (by simp))
            | cons e u => exact ⟨e, by simp, rfl⟩
          obtain ⟨tl, htl, hlast⟩ := joinSep_getLast? orTok
            (t2 :: rest') (by simp) htne2
          obtain ⟨dl, hdlmem, hdleq⟩ := getLast?_mem (htne2 tl htl)
          rw [stripWs_eq_self_of_ends d2 dl
            (by rw [hhd2]; exact hd2) (hws t2 (by simp) d2 hd2mem)
            (by rw [hlast]; exact hdleq) (hws tl (by simp [htl]) dl hdlmem)]
          rw [ih (by simp) htne2 (fun u hu => hws u (by simp [hu]))]

theorem processSearchString_plain (u : List Char)
    (hu : ∀ c ∈ u, orTermChar c = true) :
    processSearchString u = .pstr (stripQuotes u) := by
  cases u with
  | nil => rfl
  | cons c u' =>
      obtain ⟨hcw, hcp, hcb, hcparen, hcd⟩ := orTermChar_spec (hu c (by simp))
      have hnows : ∀ ch ∈ c :: u', isWSp ch = false :=
        fun ch hch => (orTermChar_spec (hu ch hch)).1
      rw [processSearchString_unfold]
      rw [detectComplexPat_none_head _ _ _ hcd hcparen, detectNotPat_none_head _ _ _ hcd]
      have hor : detectOrPat processSearchString (c :: u') = none := by
        dsimp only [detectOrPat]
        rw [if_neg (fun hx => hcparen (by simpa using hx.1))]
        rw [matchSepSplit, sepScan_none_of_no_ws hnows]
        dsimp only
        rw [if_neg (fun hx => hcb (by simpa using hx.1))]
        dsimp only
        rw [if_neg]
        intro hx
        obtain ⟨h1, -, -⟩ := hx
        rw [contains_eq_false_of_all_ne
          (fun ch hch => (orTermChar_spec (hu ch hch)).2.1)] at h1
        exact absurd h1 (by simp)
      rw [hor]
      have hand : detectAndPat processSearchString (c :: u') = none := by
        dsimp only [detectAndPat]
        rw [if_neg (fun hx => hcparen (by simpa using hx.1))]
        rw [matchSepSplit, sepScan_none_of_no_ws hnows]
        dsimp only
        rw [if_neg (fun hx => hcparen (by simpa using hx.1))]
      rw [hand]

/-- C7.  For every well-formed OR-string `a OR b OR c` whose terms carry no
further operator syntax, the parser returns a single flattened `any` node
over the quote-stripped terms in the original left-to-right order; and
end-to-end, `infer_operators` on `{from: "alice OR bob", label: "Team"}`
yields `{from: {any: [alice, bob]}, label: "Team"}` with the non-search
field untouched. -/
theorem C7_or_flattening_and_end_to_end :
    (∀ ts : List (List Char), 2 ≤ ts.length → (∀ t ∈ ts, orTerm t = true) →
      processSearchString (joinSep orTok ts) =
        pyAny (ts.map (fun t => PyVal.pstr (stripQuotes t)))) ∧
    inferOperators
        [("from".data, .pstr "alice OR bob".data), ("label".data, .pstr "Team".data)] =
      [("from".data, pyAny [.pstr "alice".data, .pstr "bob".data]),
       ("label".data, .pstr "Team".data)] := by
  constructor
  · intro ts h2 hterm
    obtain ⟨t1, t2, rest, rfl⟩ : ∃ t1 t2 rest, ts = t1 :: t2 :: rest := by
      match ts, h2 with
      | t1 :: t2 :: rest, _ => exact ⟨t1, t2, rest, rfl⟩
    have hchars : ∀ t ∈ t1 :: t2 :: rest, ∀ c ∈ t, orTermChar c = true := by
      intro t ht c hc
      have h := hterm t ht
      simp only [orTerm, Bool.and_eq_true] at h
      exact List.all_eq_true.mp h.1.2 c hc
    have htne : ∀ t ∈ t1 :: t2 :: rest, t ≠ [] := by
      intro t ht
      have h := hterm t ht
      simp only [orTerm, Bool.and_eq_true] at h
      simpa [List.isEmpty_iff] using h.1.1
    have hfix : ∀ t ∈ t1 :: t2 :: rest, stripQuotes (stripQuotes t) = stripQuotes t := by
      intro t ht
      have h := hterm t ht
      simp only [orTerm, Bool.and_eq_true] at h
      exact eq_of_beq h.2
    have hnows : ∀ t ∈ t1 :: t2 :: rest, ∀ c ∈ t, isWSp c = false :=
      fun t ht c hc => (orTermChar_spec (hchars t ht c hc)).1
    obtain ⟨c, t1', rfl⟩ : ∃ c t1', t1 = c :: t1' := by
      cases h : t1 with
      | nil => exact absurd h (htne t1 (by simp))
      | cons c t1' => exact ⟨c, t1', rfl⟩
    obtain ⟨hcw, hcp, hcb, hcparen, hcd⟩ :=
      orTermChar_spec (hchars (c :: t1') (by simp) c (by simp))
    have hs : joinSep orTok ((c :: t1') :: t2 :: rest) =
        c :: (t1' ++ orTok ++ joinSep orTok (t2 :: rest)) := by
      rw [joinSep_cons2]; simp
    have htne2 : ∀ u ∈ t2 :: rest, u ≠ [] := fun u hu => htne u (by simp [hu])
    have hhd2 : (joinSep orTok (t2 :: rest)).head? = t2.head? :=
      joinSep_head? rest (htne2 t2 (by simp))
    obtain ⟨d2, hd2mem, hd2⟩ : ∃ d2 ∈ t2, t2.head? = some d2 := by
      cases h2 : t2 with
      | nil => exact absurd h2 (htne2 t2 (by simp))
      | cons e u => exact ⟨e, by simp, rfl⟩
    have hd2w : isWSp d2 = false := hnows t2 (by simp) d2 hd2mem
    have hnl : (joinSep orTok (t2 :: rest)).contains '\n' = false := by
      have hall : ∀ ch ∈ joinSep orTok (t2 :: rest), ch ≠ '\n' := by
        apply joinSep_chars
        · intro t ht ch hch he
          have hw := hnows t (by simp [ht]) ch hch
          rw [he] at hw
          exact absurd hw (by decide)
        · decide
      exact contains_eq_false_of_all_ne hall
    rw [processSearchString_unfold, hs,
      detectComplexPat_none_head _ _ _ hcd hcparen, detectNotPat_none_head _ _ _ hcd]
    have hor : detectOrPat processSearchString
        (c :: (t1' ++ orTok ++ joinSep orTok (t2 :: rest))) =
        some (pyAny (((c :: t1') :: t2 :: rest).map
          (fun t => PyVal.pstr (stripQuotes t)))) := by
      dsimp only [detectOrPat]
      rw [if_neg (fun hx => hcparen (by simpa using hx.1))]
      have hms : matchSepSplit orWord
          (c :: (t1' ++ orTok ++ joinSep orTok (t2 :: rest))) =
          some (c :: t1', joinSep orTok (t2 :: rest)) := by
        have hb := sepScan_boundary (joinSep orTok (t2 :: rest)) d2
          (by rw [hhd2]; exact hd2) hd2w hnl (c :: t1') []
          (by simp) (hnows (c :: t1') (by simp))
        simp only [List.cons_append, List.reverse_nil, List.nil_append] at hb
        exact hb
      rw [hms]
      dsimp only
      rw [stripWs_eq_self (hnows (c :: t1') (by simp))]
      obtain ⟨tl, htl, hlast⟩ := joinSep_getLast? orTok
        (t2 :: rest) (by simp) htne2
      obtain ⟨dl, hdlmem, hdleq⟩ := getLast?_mem (htne2 tl htl)
      rw [stripWs_eq_self_of_ends d2 dl
        (by rw [hhd2]; exact hd2) hd2w
        (by rw [hlast]; exact hdleq) (hnows tl (by simp [htl]) dl hdlmem)]
      rw [tailSplit_joinSep (t2 :: rest) (by simp) htne2
        (fun u hu => hnows u (by simp [hu]))]
      have hterm2 : ∀ t ∈ (c :: t1') :: t2 :: rest,
          processSearchString (stripQuotes t) = PyVal.pstr (stripQuotes t) := by
        intro t ht
        rw [processSearchString_plain (stripQuotes t)
          (fun ch hch => hchars t ht ch ((stripQuotes_sublist t).subset hch))]
        rw [hfix t ht]
      rw [List.map_map]
      have hmaps : List.map (processSearchString ∘ stripQuotes)
            ((c :: t1') :: t2 :: rest) =
          List.map (fun t => PyVal.pstr (stripQuotes t)) ((c :: t1') :: t2 :: rest) :=
        List.map_congr_left hterm2
      rw [hmaps]
    rw [hor]
  · rfl

/-! ### hierarchy detection: disjointness of the emitted indices -/

theorem insertByCount_perm (x : Nat × Rule × Rule) :
    ∀ (l : List (Nat × Rule × Rule)), List.Perm (insertByCount x l) (x :: l) := by
  intro l
  induction l with
  | nil => exact List.Perm.refl _
  | cons y ys ih =>
      dsimp only [insertByCount]
      split
      · exact (ih.cons y).trans (List.Perm.swap x y ys)
      · exact List.Perm.refl _

theorem foldl_insertByCount_perm :
    ∀ (l acc : List (Nat × Rule × Rule)),
      List.Perm (l.foldl (fun a x => insertByCount x a) acc) (l ++ acc) := by
  intro l
  induction l with
  | nil => intro acc; simp
  | cons x xs ih =>
      intro acc
      dsimp only [List.foldl]
      refine (ih (insertByCount x acc)).trans ?_
      exact (List.Perm.append_left xs (insertByCount_perm x acc)).trans List.perm_middle

theorem sortByCount_perm (l : List (Nat × Rule × Rule)) :
    List.Perm (sortByCount l) l := by
  have h := foldl_insertByCount_perm l []
  simpa [sortByCount] using h

theorem mem_contains_nat {i : Nat} {l : List Nat} (h : i ∈ l) : l.contains i = true := by
  simpa [List.contains] using h

theorem scanChildren_spec (strategy : Strategy) (ans : Nat → Nat → MergeResp)
    (parentIdx : Nat) (parent pc : Rule) :
    ∀ (rest : List (Nat × Rule × Rule)) (used : List Nat) (skipA accA : Bool)
      (cs us : List Nat) (sk ac : Bool),
      scanChildren strategy ans parentIdx parent pc rest used skipA accA =
        (cs, us, sk, ac) →
      cs.Sublist (rest.map (fun p => p.1)) ∧
      (∀ i ∈ cs, i ∉ used) ∧
      (∀ i ∈ used, i ∈ us) ∧
      (strategy = .aggressive → ∀ i ∈ cs, i ∈ us) := by
  intro rest
  induction rest with
  | nil =>
      intro used skipA accA cs us sk ac heq
      dsimp only [scanChildren] at heq
      simp only [Prod.mk.injEq] at heq
      obtain ⟨h1, h2, -, -⟩ := heq
      subst h1; subst h2
      exact ⟨List.nil_sublist _, by simp, fun i hi => hi, fun _ => by simp⟩
  | cons hd rest ih =>
      obtain ⟨childIdx, child, cc⟩ := hd
      intro used skipA accA cs us sk ac heq
      dsimp only [scanChildren] at heq
      by_cases h1 : used.contains childIdx = true
      · rw [if_pos h1] at heq
        obtain ⟨hsub, hnot, hmono, haggr⟩ := ih used skipA accA cs us sk ac heq
        exact ⟨List.Sublist.cons _ hsub, hnot, hmono, haggr⟩
      · rw [if_neg h1] at heq
        have hcnot : childIdx ∉ used := fun hmem => h1 (mem_contains_nat hmem)
        by_cases h2 : basicChildCheck pc cc = true
        · rw [if_neg (fun hc => hc h2)] at heq
          cases strategy with
          | interactive =>
              dsimp only at heq
              by_cases h3 : skipA = true
              · rw [if_pos h3] at heq
                obtain ⟨hsub, hnot, hmono, haggr⟩ := ih used skipA accA cs us sk ac heq
                exact ⟨List.Sublist.cons _ hsub, hnot, hmono, haggr⟩
              · rw [if_neg h3] at heq
                by_cases h4 : accA = true
                · rw [if_pos h4] at heq
                  cases hans : ans parentIdx childIdx with
                  | reject =>
                      rw [hans] at heq
                      dsimp only at heq
                      obtain ⟨hsub, hnot, hmono, haggr⟩ :=
                        ih used skipA accA cs us sk ac heq
                      exact ⟨List.Sublist.cons _ hsub, hnot, hmono, haggr⟩
                  | accept | acceptAllR | skipAllR =>
                      rw [hans] at heq
                      dsimp only at heq
                      rcases hsc : scanChildren .interactive ans parentIdx parent pc rest
                        (childIdx :: used) skipA accA with ⟨cs', us', sk', ac'⟩
                      rw [hsc] at heq
                      dsimp only at heq
                      simp only [Prod.mk.injEq] at heq
                      obtain ⟨g1, g2, -, -⟩ := heq
                      subst g1; subst g2
                      obtain ⟨hsub, hnot, hmono, -⟩ :=
                        ih (childIdx :: used) skipA accA cs' us' sk' ac' hsc
                      refine ⟨List.Sublist.cons₂ _ hsub, ?_, ?_,
                        fun hst => absurd hst (by decide)⟩
                      · intro i hi
                        rcases List.mem_cons.mp hi with rfl | hi'
                        · exact hcnot
                        · exact fun hmem => hnot i hi' (by simp [hmem])
                      · exact fun i hi => hmono i (by simp [hi])
                · rw [if_neg h4] at heq
                  cases hans : ans parentIdx childIdx with
                  | reject =>
                      rw [hans] at heq
                      dsimp only at heq
                      obtain ⟨hsub, hnot, hmono, haggr⟩ :=
                        ih used skipA accA cs us sk ac heq
                      exact ⟨List.Sublist.cons _ hsub, hnot, hmono, haggr⟩
                  | skipAllR =>
                      rw [hans] at heq
                      dsimp only at heq
                      obtain ⟨hsub, hnot, hmono, haggr⟩ :=
                        ih used true accA cs us sk ac heq
                      exact ⟨List.Sublist.cons _ hsub, hnot, hmono, haggr⟩
                  | accept =>
                      rw [hans] at heq
                      dsimp only at heq
                      rcases hsc : scanChildren .interactive ans parentIdx parent pc rest
                        (childIdx :: used) skipA accA with ⟨cs', us', sk', ac'⟩
                      rw [hsc] at heq
                      dsimp only at heq
                      simp only [Prod.mk.injEq] at heq
                      obtain ⟨g1, g2, -, -⟩ := heq
                      subst g1; subst g2
                      obtain ⟨hsub, hnot, hmono, -⟩ :=
                        ih (childIdx :: used) skipA accA cs' us' sk' ac' hsc
                      refine ⟨List.Sublist.cons₂ _ hsub, ?_, ?_,
                        fun hst => absurd hst (by decide)⟩
                      · intro i hi
                        rcases List.mem_cons.mp hi with rfl | hi'
                        · exact hcnot
                        · exact fun hmem => hnot i hi' (by simp [hmem])
                      · exact fun i hi => hmono i (by simp [hi])
                  | acceptAllR =>
                      rw [hans] at heq
                      dsimp only at heq
                      rcases hsc : scanChildren .interactive ans parentIdx parent pc rest
                        (childIdx :: used) skipA true with ⟨cs', us', sk', ac'⟩
                      rw [hsc] at heq
                      dsimp only at heq
                      simp only [Prod.mk.injEq] at heq
                      obtain ⟨g1, g2, -, -⟩ := heq
                      subst g1; subst g2
                      obtain ⟨hsub, hnot, hmono, -⟩ :=
                        ih (childIdx :: used) skipA true cs' us' sk' ac' hsc
                      refine ⟨List.Sublist.cons₂ _ hsub, ?_, ?_,
                        fun hst => absurd hst (by decide)⟩
                      · intro i hi
                        rcases List.mem_cons.mp hi with rfl | hi'
                        · exact hcnot
                        · exact fun hmem => hnot i hi' (by simp [hmem])
                      · exact fun i hi => hmono i (by simp [hi])
          | conservative =>
              dsimp only at heq
              by_cases h3 : isChildOf .conservative parent child pc cc = true
              · rw [if_pos h3, if_neg (by decide)] at heq
                rcases hsc : scanChildren .conservative ans parentIdx parent pc rest
                  used skipA accA with ⟨cs', us', sk', ac'⟩
                rw [hsc] at heq
                dsimp only at heq
                simp only [Prod.mk.injEq] at heq
                obtain ⟨g1, g2, -, -⟩ := heq
                subst g1; subst g2
                obtain ⟨hsub, hnot, hmono, -⟩ :=
                  ih used skipA accA cs' us' sk' ac' hsc
                refine ⟨List.Sublist.cons₂ _ hsub, ?_, hmono,
                  fun hst => absurd hst (by decide)⟩
                intro i hi
                rcases List.mem_cons.mp hi with rfl | hi'
                · exact hcnot
                · exact hnot i hi'
              · rw [if_neg h3] at heq
                obtain ⟨hsub, hnot, hmono, haggr⟩ := ih used skipA accA cs us sk ac heq
                exact ⟨List.Sublist.cons _ hsub, hnot, hmono, haggr⟩
          | aggressive =>
              dsimp only at heq
              by_cases h3 : isChildOf .aggressive parent child pc cc = true
              · rw [if_pos h3, if_pos rfl] at heq
                rcases hsc : scanChildren .aggressive ans parentIdx parent pc rest
                  (childIdx :: used) skipA accA with ⟨cs', us', sk', ac'⟩
                rw [hsc] at heq
                dsimp only at heq
                simp only [Prod.mk.injEq] at heq
                obtain ⟨g1, g2, -, -⟩ := heq
                subst g1; subst g2
                obtain ⟨hsub, hnot, hmono, haggr⟩ :=
                  ih (childIdx :: used) skipA accA cs' us' sk' ac' hsc
                refine ⟨List.Sublist.cons₂ _ hsub, ?_, ?_, ?_⟩
                · intro i hi
                  rcases List.mem_cons.mp hi with rfl | hi'
                  · exact hcnot
                  · exact fun hmem => hnot i hi' (by simp [hmem])
                · exact fun i hi => hmono i (by simp [hi])
                · intro _ i hi
                  rcases List.mem_cons.mp hi with rfl | hi'
                  · exact hmono i (by simp)
                  · exact haggr rfl i hi'
              · rw [if_neg h3] at heq
                obtain ⟨hsub, hnot, hmono, haggr⟩ := ih used skipA accA cs us sk ac heq
                exact ⟨List.Sublist.cons _ hsub, hnot, hmono, haggr⟩
        · rw [if_pos h2] at heq
          obtain ⟨hsub, hnot, hmono, haggr⟩ := ih used skipA accA cs us sk ac heq
          exact ⟨List.Sublist.cons _ hsub, hnot, hmono, haggr⟩

theorem parentLoop_spec (strategy : Strategy) (ans : Nat → Nat → MergeResp) :
    ∀ (rest : List (Nat × Rule × Rule)) (used : List Nat) (skipA accA : Bool),
      (rest.map (fun p => p.1)).Nodup →
      ((parentLoop strategy ans rest used skipA accA).bind
          (fun h => h.parent :: h.children)).Nodup ∧
      (∀ i ∈ (parentLoop strategy ans rest used skipA accA).bind
          (fun h => h.parent :: h.children), i ∉ used) ∧
      (∀ i ∈ (parentLoop strategy ans rest used skipA accA).bind
          (fun h => h.parent :: h.children), i ∈ rest.map (fun p => p.1)) := by
  intro rest
  induction rest with
  | nil =>
      intro used skipA accA _
      exact ⟨by simp [parentLoop], by simp [parentLoop], by simp [parentLoop]⟩
  | cons hd rest ih =>
      obtain ⟨pIdx, p, pc⟩ := hd
      intro used skipA accA hnodup
      simp only [List.map_cons] at hnodup ⊢
      have hpnotin : pIdx ∉ rest.map (fun q => q.1) := (List.nodup_cons.mp hnodup).1
      have hnodup' : (rest.map (fun q => q.1)).Nodup := (List.nodup_cons.mp hnodup).2
      dsimp only [parentLoop]
      by_cases h1 : used.contains pIdx = true
      · rw [if_pos h1]
        obtain ⟨ha, hb, hc⟩ := ih used skipA accA hnodup'
        exact ⟨ha, hb, fun i hi => List.mem_cons_of_mem _ (hc i hi)⟩
      · rw [if_neg h1]
        have hpnotused : pIdx ∉ used := fun hmem => h1 (mem_contains_nat hmem)
        rcases hsc : scanChildren strategy ans pIdx p pc rest used skipA accA
          with ⟨cs, us1, sk1, ac1⟩
        dsimp only
        obtain ⟨hsub, hnotused, hmono, haggr⟩ :=
          scanChildren_spec strategy ans pIdx p pc rest used skipA accA cs us1 sk1 ac1 hsc
        by_cases h2 : cs.isEmpty = true
        · rw [if_pos h2]
          obtain ⟨ha, hb, hc⟩ := ih us1 sk1 ac1 hnodup'
          exact ⟨ha, fun i hi hmem => hb i hi (hmono i hmem),
            fun i hi => List.mem_cons_of_mem _ (hc i hi)⟩
        · rw [if_neg h2]
          have hcsmem : ∀ i ∈ cs, i ∈ rest.map (fun q => q.1) := fun i hi => hsub.subset hi
          have hused3 : ∀ i ∈ pIdx :: cs,
              i ∈ (if strategy = .conservative ∨ strategy = .interactive then
                cs ++ pIdx :: us1 else pIdx :: us1) := by
            intro i hi
            rcases List.mem_cons.mp hi with rfl | hi'
            · split
              · exact List.mem_append_right _ (by simp)
              · simp
            · split
              · exact List.mem_append_left _ hi'
              · rename_i hnc
                have hstr : strategy = .aggressive := by
                  cases strategy with
                  | conservative => exact absurd (Or.inl rfl) hnc
                  | interactive => exact absurd (Or.inr rfl) hnc
                  | aggressive => rfl
                exact List.mem_cons_of_mem _ (haggr hstr i hi')
          have hused3sup : ∀ i ∈ used,
              i ∈ (if strategy = .conservative ∨ strategy = .interactive then
                cs ++ pIdx :: us1 else pIdx :: us1) := by
            intro i hi
            split
            · exact List.mem_append_right _ (List.mem_cons_of_mem _ (hmono i hi))
            · exact List.mem_cons_of_mem _ (hmono i hi)
          obtain ⟨ha, hb, hc⟩ := ih
            (if strategy = .conservative ∨ strategy = .interactive then
              cs ++ pIdx :: us1 else pIdx :: us1) sk1 ac1 hnodup'
          simp only [List.cons_bind]
          refine ⟨?_, ?_, ?_⟩
          · rw [List.nodup_append]
            refine ⟨?_, ha, ?_⟩
            · dsimp only
              rw [List.nodup_cons]
              exact ⟨fun hmem => hpnotin (hcsmem pIdx hmem), hnodup'.sublist hsub⟩
            · intro i hi hti
              exact hb i hti (hused3 i hi)
          · intro i hi hmem
            rcases List.mem_append.mp hi with hi' | hti
            · rcases List.mem_cons.mp hi' with rfl | hic
              · exact hpnotused hmem
              · exact hnotused i hic hmem
            · exact hb i hti (hused3sup i hmem)
          · intro i hi
            rcases List.mem_append.mp hi with hi' | hti
            · rcases List.mem_cons.mp hi' with rfl | hic
              · exact List.mem_cons_self _ _
              · exact List.mem_cons_of_mem _ (hcsmem i hic)
            · exact List.mem_cons_of_mem _ (hc i hti)

/-- C10.  For every filter list and every strategy — conservative,
aggressive, or interactive under any sequence of user decisions — the
hierarchies returned by `_detect_hierarchies` use pairwise disjoint filter
indices: collecting the parent index and the child indices of every emitted
hierarchy yields a duplicate-free list, so no rule is nested under two
parents or used both as a parent and as a child. -/
theorem C10_hierarchy_indices_disjoint (strategy : Strategy)
    (ans : Nat → Nat → MergeResp) (filters : List Rule) :
    ((detectHierarchies strategy ans filters).bind
      (fun h => h.parent :: h.children)).Nodup := by
  have hidx : ((filters.enum.map fun q => (q.1, q.2, getFilterConditions q.2)).map
      (fun q => q.1)) = List.range filters.length := by
    rw [List.map_map]
    exact List.enum_map_fst filters
  have hp := (sortByCount_perm (filters.enum.map fun q =>
    (q.1, q.2, getFilterConditions q.2))).map (fun q => q.1)
  rw [hidx] at hp
  have hnodup := hp.nodup_iff.mpr (List.nodup_range _)
  exact (parentLoop_spec strategy ans
    (sortByCount (filters.enum.map fun q => (q.1, q.2, getFilterConditions q.2)))
    [] false false hnodup).1

end GmailYamlFilters
